import Mathlib

/-!
Verification of the symbolic address-space resolver of a KLEE-style symbolic
virtual machine (`lib/Core/AddressSpace.cpp`).  The C++ code is shallowly
embedded: the persistent ordered map keyed by `MemoryObject` base address is
modelled as a sorted association list, machine integers as `Nat` with explicit
reductions modulo `2 ^ 64` (and modulo `2 ^ 32` where the source narrows to
`unsigned`), the timing solver as a record of three partial oracle functions,
and wall-clock timeout checks as a Boolean stream indexed by a check counter.
-/

set_option linter.unusedVariables false

namespace Klee

/-- Machine word bound `2 ^ 64`: the range of the `uint64_t` values used by the
address-space code. -/
def w64 : Nat := 2 ^ 64

/-- Bound `2 ^ 32` of the C++ `unsigned` type, to which
`AddressSpace::resolveConstantAddress` narrows the object size. -/
def w32 : Nat := 2 ^ 32

/-- Unsigned 64-bit subtraction with wraparound, as in `address - mo->address`
on `uint64_t` operands. -/
def sub64 (a b : Nat) : Nat := (a % w64 + (w64 - b % w64)) % w64

/-- Shallow embedding of the KLEE expression language, restricted to the
constructors the address-space resolver builds: integer constants,
symbolic leaves, `UgeExpr`, `UltExpr`, `EqExpr`, `Expr::createIsZero`, and the
per-object bounds-check expression.  The `boundsCheck` constructor records the
object's concrete base address and its (possibly symbolic) size expression
together with the pointer's offset expression.  Widths are not tracked; all
constants are reduced modulo `2 ^ 64` at evaluation and extraction points. -/
inductive Expr : Type where
  | const (v : Nat)
  | sym (i : Nat)
  | uge (a b : Expr)
  | ult (a b : Expr)
  | eq (a b : Expr)
  | isZero (e : Expr)
  | boundsCheck (addr : Nat) (size : Expr) (off : Expr)
deriving DecidableEq, Repr

/-- `dyn_cast<ConstantExpr>` followed by `getZExtValue()`: yields the constant
value of an expression reduced to 64 bits, or `none` on a non-constant. -/
def Expr.asConst : Expr → Option Nat
  | .const v => some (v % w64)
  | _ => none

/-- A KLEE `KValue` pointer: a segment expression and an offset/value
expression (`getValue` and `getOffset` coincide on plain pointers). -/
structure KValue where
  segment : Expr
  value : Expr
deriving DecidableEq, Repr

/-- `KValue::isConstant()`: both components are constant expressions. -/
def KValue.isConstant (p : KValue) : Bool :=
  p.segment.asConst.isSome && p.value.asConst.isSome

/-- A `MemoryObject`: concrete base address (the map ordering key), byte-size
expression (usually constant, possibly symbolic), segment identifier (0 for
address-only objects), and the user-specified flag. -/
structure MemoryObject where
  address : Nat
  size : Expr
  segment : Nat
  isUserSpecified : Bool := false
deriving DecidableEq, Repr

/-- An `ObjectState`: the per-address-space contents of a memory object.  The
byte store is irrelevant to the resolver and the map invariants, so only the
metadata is kept; `id` stands for the C++ heap identity of the state object so
that cloning (which allocates) is observable. -/
structure ObjectState where
  id : Nat
  readOnly : Bool
  copyOnWriteOwner : Nat
deriving DecidableEq, Repr

/-- An entry of the `objects` map: `(MemoryObject, ObjectState)`, i.e. an
`ObjectPair`. -/
abbrev MemEntry := MemoryObject × ObjectState

/-- The solver oracle (`TimingSolver`): each query may fail, returning `none`
(the C++ functions return `false` and leave the output unassigned).  The
execution state's constraint set and query metadata are fixed for one
resolution, so they are folded into the oracle functions. -/
structure Solver where
  getValue : Expr → Option Nat
  mayBeTrue : Expr → Option Bool
  mustBeTrue : Expr → Option Bool

/-- A solver none of whose calls fail. -/
def TotalSolver (S : Solver) : Prop :=
  ∀ e, (S.getValue e).isSome ∧ (S.mayBeTrue e).isSome ∧ (S.mustBeTrue e).isSome

/-- `ImmutableMap::replace` on the `objects` map: insert an entry, replacing
any entry whose key compares equal under `MemoryObjectLT` (i.e. has the same
base address).  The model keeps the list sorted by address. -/
def objectsReplace : List MemEntry → MemEntry → List MemEntry
  | [], e => [e]
  | x :: xs, e =>
    if x.1.address < e.1.address then x :: objectsReplace xs e
    else if x.1.address = e.1.address then e :: xs
    else e :: x :: xs

/-- `ImmutableMap::remove` on the `objects` map: drop the entry whose key has
the given object's base address, if any. -/
def objectsRemove : List MemEntry → MemoryObject → List MemEntry
  | [], _ => []
  | x :: xs, mo => if x.1.address = mo.address then xs else x :: objectsRemove xs mo

/-- `ImmutableMap::lookup` on the `objects` map: the entry whose key has the
given object's base address. -/
def objectsLookup : List MemEntry → MemoryObject → Option MemEntry
  | [], _ => none
  | x :: xs, mo => if x.1.address = mo.address then some x else objectsLookup xs mo

/-- `ImmutableMap::lookup_previous` with a synthetic key of address `a`: the
greatest entry whose address is `≤ a` (on the sorted representation). -/
def lookupPrev : List MemEntry → Nat → Option MemEntry
  | [], _ => none
  | x :: xs, a =>
    if x.1.address ≤ a then
      match lookupPrev xs a with
      | some r => some r
      | none => some x
    else none

/-- `segmentMap` lookup by segment identifier. -/
def segLookup : List (Nat × MemoryObject) → Nat → Option MemoryObject
  | [], _ => none
  | x :: xs, s => if x.1 = s then some x.2 else segLookup xs s

/-- `segmentMap.replace`: insert keyed by segment identifier, kept sorted. -/
def segReplace : List (Nat × MemoryObject) → Nat → MemoryObject → List (Nat × MemoryObject)
  | [], s, mo => [(s, mo)]
  | x :: xs, s, mo =>
    if x.1 < s then x :: segReplace xs s mo
    else if x.1 = s then (s, mo) :: xs
    else (s, mo) :: x :: xs

/-- `segmentMap.remove`. -/
def segRemove : List (Nat × MemoryObject) → Nat → List (Nat × MemoryObject)
  | [], _ => []
  | x :: xs, s => if x.1 = s then xs else x :: segRemove xs s

/-- An `AddressSpace`: one version of the `objects` map (sorted by base
address) and of the segment map, plus the copy-on-write key.  `idCounter`
models the allocator that gives cloned `ObjectState`s fresh identities. -/
structure AddressSpace where
  cowKey : Nat
  objects : List MemEntry
  segmentMap : List (Nat × MemoryObject)
  idCounter : Nat := 0
deriving DecidableEq, Repr

/-- `AddressSpace::bindObject`: stamp the state with the space's CoW key,
insert it into `objects`, and register a non-zero segment in `segmentMap`.
The C++ asserts `os->copyOnWriteOwner == 0`; that precondition appears as a
hypothesis in the theorems. -/
def bindObject (A : AddressSpace) (mo : MemoryObject) (os : ObjectState) : AddressSpace :=
  let os' := { os with copyOnWriteOwner := A.cowKey }
  { A with
    objects := objectsReplace A.objects (mo, os')
    segmentMap :=
      if mo.segment ≠ 0 then segReplace A.segmentMap mo.segment mo else A.segmentMap }

/-- `AddressSpace::unbindObject`: remove the segment-map entry for a non-zero
segment, then remove the object from `objects`. -/
def unbindObject (A : AddressSpace) (mo : MemoryObject) : AddressSpace :=
  { A with
    segmentMap := if mo.segment ≠ 0 then segRemove A.segmentMap mo.segment else A.segmentMap
    objects := objectsRemove A.objects mo }

/-- `AddressSpace::findObject`. -/
def findObject (A : AddressSpace) (mo : MemoryObject) : Option ObjectState :=
  (objectsLookup A.objects mo).map (fun e => e.2)

/-- `AddressSpace::getWriteable`: the CoW upgrade.  If this space already owns
the state, return it in place; otherwise clone it (fresh identity), stamp the
clone with `cowKey`, and replace the binding.  The C++ asserts
`!os->readOnly`; that precondition appears as a hypothesis in the theorems. -/
def getWriteable (A : AddressSpace) (mo : MemoryObject) (os : ObjectState) :
    AddressSpace × ObjectState :=
  if A.cowKey = os.copyOnWriteOwner then (A, os)
  else
    let newOs : ObjectState :=
      { os with copyOnWriteOwner := A.cowKey, id := A.idCounter }
    ({ A with
        objects := objectsReplace A.objects (mo, newOs)
        idCounter := A.idCounter + 1 },
      newOs)

/-- One public mutating operation on an address space. -/
inductive ASOp : Type where
  | bind (mo : MemoryObject) (os : ObjectState)
  | unbind (mo : MemoryObject)
  | getWr (mo : MemoryObject) (os : ObjectState)
deriving DecidableEq, Repr

/-- Apply one operation (for `getWr`, keep the updated space). -/
def applyOp (A : AddressSpace) : ASOp → AddressSpace
  | .bind mo os => bindObject A mo os
  | .unbind mo => unbindObject A mo
  | .getWr mo os => (getWriteable A mo os).1

/-- Apply a sequence of operations left to right. -/
def applyOps (A : AddressSpace) : List ASOp → AddressSpace
  | [] => A
  | op :: ops => applyOps (applyOp A op) ops

/-- Well-formed usage of one operation, as the callers guarantee it: a bound
object is bound under its own address key and its own non-zero segment is not
held by a distinct bound object; `unbindObject` removes a currently bound
object; `getWriteable` upgrades a state actually bound in this space and not
read-only. -/
def ValidOp (A : AddressSpace) : ASOp → Prop
  | .bind mo os =>
      os.copyOnWriteOwner = 0 ∧
      (∀ e ∈ A.objects, e.1.address = mo.address → e.1 = mo) ∧
      (mo.segment ≠ 0 → ∀ e ∈ A.objects, e.1.segment = mo.segment → e.1 = mo)
  | .unbind mo => ∃ os, (mo, os) ∈ A.objects
  | .getWr mo os => (mo, os) ∈ A.objects ∧ os.readOnly = false

/-- Validity of a whole operation sequence, each step checked in the space the
previous steps produced. -/
def ValidOps (A : AddressSpace) : List ASOp → Prop
  | [] => True
  | op :: ops => ValidOp A op ∧ ValidOps (applyOp A op) ops

/-- `MemoryObject::getBoundsCheckPointer(pointer)`.  Modelled from the spec:
the implementation lives in `Memory.h`, which is outside the core sources; the
spec defines it as the solver expression meaning "offset lies within
`[mo.base, mo.base + mo.size)`, or equals the base for zero-sized objects". -/
def boundsFor (mo : MemoryObject) (p : KValue) : Expr :=
  Expr.boundsCheck mo.address mo.size p.value

/-- `MemoryObject::getBaseExpr()`: the base address as a constant. -/
def baseFor (mo : MemoryObject) : Expr := Expr.const mo.address

/-- `AddressSpace::resolveConstantAddress`:  a non-zero constant segment is
looked up in the segment map with no bounds check; segment 0 does a floor
lookup by the concrete address and checks
`(size == 0 && address == mo->address) || (address - mo->address < size)`,
skipping objects with symbolic size.  The source narrows the size to the C++
`unsigned` type (`unsigned size = CE->getZExtValue();`), hence the reduction
modulo `2 ^ 32`.  The `cast<...>` preconditions (constant segment; constant
value on the segment-0 path) hold at every call site; the embedding returns
`none` on their violation. -/
def resolveConstantAddress (A : AddressSpace) (p : KValue) : Option MemEntry :=
  match p.segment.asConst with
  | none => none
  | some segment =>
    if segment ≠ 0 then
      match segLookup A.segmentMap segment with
      | some mo => objectsLookup A.objects mo
      | none => none
    else
      match p.value.asConst with
      | none => none
      | some address =>
        match lookupPrev A.objects address with
        | some res =>
          match res.1.size.asConst with
          | some sz =>
            let size := sz % w32
            if (size = 0 ∧ address = res.1.address) ∨ sub64 address res.1.address < size then
              some res
            else none
          | none => none
        | none => none

/-- The segment value `resolveOne` works with after its concretisation step:
`dyn_cast<ConstantExpr>(pointer.getSegment())`, falling back to
`solver->getValue` on a symbolic segment (failure propagates as `none`). -/
def concretizedSegment (S : Solver) (p : KValue) : Option Nat :=
  match p.segment.asConst with
  | some s => some s
  | none => (S.getValue p.segment).map (fun v => v % w64)

/-- Result of `AddressSpace::resolveOne`: the C++ return value, the `success`
out-parameter (`none` when the function returns without assigning it), and the
`result` out-parameter (`none` when unassigned). -/
structure ResolveOneOut where
  ret : Bool
  success : Option Bool
  result : Option MemEntry
deriving DecidableEq, Repr

/-- Outcome of one directional search loop inside `resolveOne`. -/
inductive WalkOut : Type where
  | fail
  | commit (e : MemEntry)
  | fallthrough
deriving DecidableEq, Repr

/-- The backward search of `resolveOne` over the entries at or below the
example (visited in decreasing address order): commit on
`mayBeTrue(boundsCheck)`, stop on `mustBeTrue(offset ≥ base)`. -/
def resolveOneBackward (S : Solver) (p : KValue) : List MemEntry → WalkOut
  | [] => .fallthrough
  | e :: rest =>
    match S.mayBeTrue (boundsFor e.1 p) with
    | none => .fail
    | some true => .commit e
    | some false =>
      match S.mustBeTrue (Expr.uge p.value (baseFor e.1)) with
      | none => .fail
      | some true => .fallthrough
      | some false => resolveOneBackward S p rest

/-- The forward search of `resolveOne` over the entries above the example:
stop on `mustBeTrue(offset < base)`, commit on `mayBeTrue(boundsCheck)`. -/
def resolveOneForward (S : Solver) (p : KValue) : List MemEntry → WalkOut
  | [] => .fallthrough
  | e :: rest =>
    match S.mustBeTrue (Expr.ult p.value (baseFor e.1)) with
    | none => .fail
    | some true => .fallthrough
    | some false =>
      match S.mayBeTrue (boundsFor e.1 p) with
      | none => .fail
      | some true => .commit e
      | some false => resolveOneForward S p rest

/-- `AddressSpace::resolveOne`.  A fully constant pointer delegates to
`resolveConstantAddress` and always returns `true`.  Otherwise a symbolic
segment is concretised with `getValue`; a non-zero (possibly concretised)
segment returns `resolveConstantAddress`'s own result directly, leaving
`success` unassigned.  On the zero-segment path: concretise the offset, try
the floor fast path (concrete size, `example - mo->address < size`, with no
zero-size case), then walk backwards and forwards from `upper_bound`. -/
def resolveOne (A : AddressSpace) (S : Solver) (p : KValue) : ResolveOneOut :=
  if p.isConstant then
    match resolveConstantAddress A p with
    | some e => ⟨true, some true, some e⟩
    | none => ⟨true, some false, none⟩
  else
    match concretizedSegment S p with
    | none => ⟨false, none, none⟩
    | some seg =>
      if seg ≠ 0 then
        match resolveConstantAddress A ⟨Expr.const seg, p.value⟩ with
        | some e => ⟨true, none, some e⟩
        | none => ⟨false, none, none⟩
      else
        match S.getValue p.value with
        | none => ⟨false, none, none⟩
        | some v =>
          let ex := v % w64
          let fast : Option MemEntry :=
            match lookupPrev A.objects ex with
            | some res =>
              match res.1.size.asConst with
              | some sz => if sub64 ex res.1.address < sz then some res else none
              | none => none
            | none => none
          match fast with
          | some e => ⟨true, some true, some e⟩
          | none =>
            let back := (A.objects.takeWhile (fun e => e.1.address ≤ ex)).reverse
            let fwd := A.objects.dropWhile (fun e => e.1.address ≤ ex)
            match resolveOneBackward S p back with
            | .fail => ⟨false, none, none⟩
            | .commit e => ⟨true, some true, some e⟩
            | .fallthrough =>
              match resolveOneForward S p fwd with
              | .fail => ⟨false, none, none⟩
              | .commit e => ⟨true, some true, some e⟩
              | .fallthrough => ⟨true, some false, none⟩

/-- The concrete-example fast path of `resolveOne`'s zero-segment branch: the
floor object of the example, accepted when its size is concrete and
`example - mo->address < size` under 64-bit arithmetic (no zero-size case on
this path). -/
def resolveOneFast (A : AddressSpace) (ex : Nat) : Option MemEntry :=
  match lookupPrev A.objects ex with
  | some res =>
    match res.1.size.asConst with
    | some sz => if sub64 ex res.1.address < sz then some res else none
    | none => none
  | none => none

/-- The entries visited by the backward searches: the bound entries at or
below the concrete example, in decreasing address order (from
`objects.upper_bound` down to `objects.begin()`). -/
def backEntries (A : AddressSpace) (ex : Nat) : List MemEntry :=
  (A.objects.takeWhile (fun e => e.1.address ≤ ex)).reverse

/-- The entries visited by the forward searches: the bound entries above the
concrete example, in increasing address order (from `objects.upper_bound` to
`objects.end()`). -/
def fwdEntries (A : AddressSpace) (ex : Nat) : List MemEntry :=
  A.objects.dropWhile (fun e => e.1.address ≤ ex)

/-- `AddressSpace::checkPointerInObject`: ask `mayBeTrue(boundsCheck)`; on
failure report 1 (incomplete).  If satisfiable, append the pair; if it is the
first result overall, additionally ask `mustBeTrue` (0 = unique, done); else
if the list has reached `maxResolutions`, report 1; otherwise 2 (continue). -/
def checkPointerInObject (S : Solver) (p : KValue) (op : MemEntry)
    (rl : List MemEntry) (maxResolutions : Nat) : Nat × List MemEntry :=
  let inBounds := boundsFor op.1 p
  match S.mayBeTrue inBounds with
  | none => (1, rl)
  | some mayBe =>
    if mayBe then
      let rl' := rl ++ [op]
      if rl'.length = 1 then
        match S.mustBeTrue inBounds with
        | none => (1, rl')
        | some true => (0, rl')
        | some false => (2, rl')
      else if rl'.length = maxResolutions then (1, rl')
      else (2, rl')
    else (2, rl)

/-- Outcome of one directional enumeration loop in `resolveConstantSegment`:
`incomplete` maps to `return true`, `complete` to `return false` (a unique
must-be-in result terminated the enumeration), `next` to falling through to
the rest of the function. -/
inductive FlatOut : Type where
  | incomplete
  | complete
  | next
deriving DecidableEq, Repr

/-- The backward enumeration loop of `resolveConstantSegment`: per iteration a
timeout check, then `checkPointerInObject`, then the
`mustBeTrue(offset ≥ base)` cut-off.  The timeout is a Boolean stream `to`
consulted at successive check indices `t`. -/
def flatBackward (S : Solver) (p : KValue) (maxResolutions : Nat) (tmo : Nat → Bool) :
    List MemEntry → List MemEntry → Nat → FlatOut × List MemEntry × Nat
  | [], rl, t => (.next, rl, t)
  | e :: rest, rl, t =>
    if tmo t then (.incomplete, rl, t + 1)
    else
      let cr := checkPointerInObject S p e rl maxResolutions
      if cr.1 = 0 then (.complete, cr.2, t + 1)
      else if cr.1 = 1 then (.incomplete, cr.2, t + 1)
      else
        match S.mustBeTrue (Expr.uge p.value (baseFor e.1)) with
        | none => (.incomplete, cr.2, t + 1)
        | some true => (.next, cr.2, t + 1)
        | some false => flatBackward S p maxResolutions tmo rest cr.2 (t + 1)

/-- The forward enumeration loop of `resolveConstantSegment`: per iteration a
timeout check, then the `mustBeTrue(offset < base)` cut-off, then
`checkPointerInObject`. -/
def flatForward (S : Solver) (p : KValue) (maxResolutions : Nat) (tmo : Nat → Bool) :
    List MemEntry → List MemEntry → Nat → FlatOut × List MemEntry × Nat
  | [], rl, t => (.next, rl, t)
  | e :: rest, rl, t =>
    if tmo t then (.incomplete, rl, t + 1)
    else
      match S.mustBeTrue (Expr.ult p.value (baseFor e.1)) with
      | none => (.incomplete, rl, t + 1)
      | some true => (.next, rl, t + 1)
      | some false =>
        let cr := checkPointerInObject S p e rl maxResolutions
        if cr.1 = 0 then (.complete, cr.2, t + 1)
        else if cr.1 = 1 then (.incomplete, cr.2, t + 1)
        else flatForward S p maxResolutions tmo rest cr.2 (t + 1)

/-- `AddressSpace::resolveConstantSegment`.  A non-zero constant segment
appends the at-most-one `resolveConstantAddress` result and returns complete.
Segment 0 concretises the offset with `getValue` (failure returns
incomplete), seeds at `upper_bound(example)`, and runs the backward then the
forward enumeration loop.  Returns `(returnValue, rl, checkCounter)`. -/
def resolveConstantSegment (A : AddressSpace) (S : Solver) (p : KValue)
    (maxResolutions : Nat) (tmo : Nat → Bool) (rl : List MemEntry) (t : Nat) :
    Bool × List MemEntry × Nat :=
  match p.segment.asConst with
  | none => (false, rl, t)
  | some s =>
    if s ≠ 0 then
      match resolveConstantAddress A p with
      | some e => (false, rl ++ [e], t)
      | none => (false, rl, t)
    else
      match S.getValue p.value with
      | none => (true, rl, t)
      | some v =>
        let ex := v % w64
        let back := (A.objects.takeWhile (fun e => e.1.address ≤ ex)).reverse
        let fwd := A.objects.dropWhile (fun e => e.1.address ≤ ex)
        match flatBackward S p maxResolutions tmo back rl t with
        | (.incomplete, rl', t') => (true, rl', t')
        | (.complete, rl', t') => (false, rl', t')
        | (.next, rl', t') =>
          match flatForward S p maxResolutions tmo fwd rl' t' with
          | (.incomplete, rl'', t'') => (true, rl'', t'')
          | (.complete, rl'', t'') => (false, rl'', t'')
          | (.next, rl'', t'') => (false, rl'', t'')

/-- The symbolic-segment enumeration loop of `AddressSpace::resolve`: iterate
over the segment map; per iteration a timeout check, then
`mayBeTrue(pointer.segment == s)`; on success append the bound pair from
`objects` with no bounds check.  (The source dereferences `objects.lookup`
unconditionally; a missing entry is impossible under the segment-map
synchronisation invariant and is skipped in the model.) -/
def segLoop (A : AddressSpace) (S : Solver) (p : KValue) (tmo : Nat → Bool) :
    List (Nat × MemoryObject) → List MemEntry → Nat → Bool × List MemEntry
  | [], rl, _ => (false, rl)
  | (s, mo) :: rest, rl, t =>
    if tmo t then (true, rl)
    else
      match S.mayBeTrue (Expr.eq p.segment (Expr.const s)) with
      | none => (true, rl)
      | some true =>
        match objectsLookup A.objects mo with
        | some e => segLoop A S p tmo rest (rl ++ [e]) (t + 1)
        | none => segLoop A S p tmo rest rl (t + 1)
      | some false => segLoop A S p tmo rest rl (t + 1)

/-- `AddressSpace::resolve`.  A constant segment delegates to
`resolveConstantSegment`.  Otherwise: if `mayBeTrue(segment == 0)` fails,
return incomplete; if it holds, run the flat phase with segment 0 and
propagate its incomplete flag; then run the symbolic-segment loop. -/
def resolve (A : AddressSpace) (S : Solver) (p : KValue)
    (maxResolutions : Nat) (tmo : Nat → Bool) : Bool × List MemEntry :=
  match p.segment.asConst with
  | some _ =>
    let r := resolveConstantSegment A S p maxResolutions tmo [] 0
    (r.1, r.2.1)
  | none =>
    match S.mayBeTrue (Expr.isZero p.segment) with
    | none => (true, [])
    | some mb =>
      let r :=
        if mb then resolveConstantSegment A S ⟨Expr.const 0, p.value⟩ maxResolutions tmo [] 0
        else (false, [], 0)
      if r.1 then (true, r.2.1)
      else segLoop A S p tmo A.segmentMap r.2.1 r.2.2

/-- Evaluation of an expression under an assignment to the symbolic leaves.
Booleans are 1/0; every result is reduced modulo `2 ^ 64`.  The semantics of
`boundsCheck` is modelled from the spec: the offset lies in
`[base, base + size)` — via wrapping subtraction, as the in-bounds tests of
the source compute it — or equals the base for a zero-sized object. -/
def evalExpr : Expr → (Nat → Nat) → Nat
  | .const v, _ => v % w64
  | .sym i, α => α i % w64
  | .uge a b, α => if evalExpr b α ≤ evalExpr a α then 1 else 0
  | .ult a b, α => if evalExpr a α < evalExpr b α then 1 else 0
  | .eq a b, α => if evalExpr a α = evalExpr b α then 1 else 0
  | .isZero e, α => if evalExpr e α = 0 then 1 else 0
  | .boundsCheck addr size off, α =>
    let sz := evalExpr size α
    let o := evalExpr off α
    if sz = 0 then (if o = addr % w64 then 1 else 0)
    else if sub64 o addr < sz then 1 else 0

/-- Soundness of a solver oracle with respect to a set `P` of assignments
satisfying the path constraints: `mayBeTrue` decides satisfiability,
`mustBeTrue` decides validity, and `getValue` samples a feasible value. -/
structure Sound (P : (Nat → Nat) → Prop) (S : Solver) : Prop where
  may : ∀ e b, S.mayBeTrue e = some b → ((∃ α, P α ∧ evalExpr e α ≠ 0) ↔ b = true)
  must : ∀ e b, S.mustBeTrue e = some b → ((∀ α, P α → evalExpr e α ≠ 0) ↔ b = true)
  getVal : ∀ e v, S.getValue e = some v → ∃ α, P α ∧ evalExpr e α = v

/-- The ground solver that answers every query by evaluating it under the
fixed assignment `α₀`: a total oracle, sound for the constraint set whose only
model is `α₀`. -/
def evalSolver (α₀ : Nat → Nat) : Solver where
  getValue := fun e => some (evalExpr e α₀)
  mayBeTrue := fun e => some (decide (evalExpr e α₀ ≠ 0))
  mustBeTrue := fun e => some (decide (evalExpr e α₀ ≠ 0))

/-- Concrete size of an entry's object, when the size expression is constant
(0 as a dummy otherwise). -/
def sizeC (e : MemEntry) : Nat := e.1.size.asConst.getD 0

/-- Geometric well-formedness of a map entry, as the memory allocator
guarantees it for flat objects: the base address is a `uint64_t`, the size is
a concrete expression, and the object fits below `2 ^ 64`. -/
def Geom (e : MemEntry) : Prop :=
  e.1.address < w64 ∧ ∃ c, e.1.size = Expr.const c ∧ c < w64 ∧ e.1.address + c ≤ w64

/-- Separation of two entries: the first lies strictly below the second and
their address ranges do not overlap. -/
def Sep (a b : MemEntry) : Prop :=
  a.1.address < b.1.address ∧ a.1.address + sizeC a ≤ b.1.address

/-- The set denoted by the spec's `bounds_check`: the concrete offset `o` lies
inside the entry's object. -/
def inB (e : MemEntry) (o : Nat) : Prop :=
  (sizeC e = 0 ∧ o = e.1.address) ∨ (e.1.address ≤ o ∧ o < e.1.address + sizeC e)

/-- Invariant 1 of the spec's data model: every object state reachable from
the address space has `copyOnWriteOwner` equal to 0 or to the space's CoW
key. -/
def CowInv (A : AddressSpace) : Prop :=
  ∀ e ∈ A.objects, e.2.copyOnWriteOwner = 0 ∨ e.2.copyOnWriteOwner = A.cowKey

/-- The segment-map synchronisation invariant exactly as the claim states it:
`segmentMap[s] == mo` iff `mo` is a key of `objects` and `mo.segment == s`
(the containment of every bound non-zero segment follows from the
right-to-left direction). -/
def SegSync (A : AddressSpace) : Prop :=
  ∀ s mo, segLookup A.segmentMap s = some mo ↔
    ((∃ os, (mo, os) ∈ A.objects) ∧ mo.segment = s)

/-- The synchronisation invariant restricted to non-zero segment keys — what
the code actually maintains, since segment-0 objects are never entered into
the segment map. -/
def SegSyncA (A : AddressSpace) : Prop :=
  ∀ s mo, segLookup A.segmentMap s = some mo ↔
    ((∃ os, (mo, os) ∈ A.objects) ∧ mo.segment = s ∧ s ≠ 0)

/-- Structural well-formedness of an address space: `objects` is strictly
sorted by base address and `segmentMap` strictly sorted by segment key, as the
underlying balanced-tree maps guarantee. -/
def WFmaps (A : AddressSpace) : Prop :=
  A.objects.Pairwise (fun a b => a.1.address < b.1.address) ∧
  A.segmentMap.Pairwise (fun a b => a.1 < b.1)

/-- A fresh object state (owner 0). -/
def os0 : ObjectState := ⟨0, false, 0⟩

/-- Concrete data for the `resolveOne` return-contract claim: an empty address
space, a never-failing solver that concretises every expression to 1, and a
pointer with a symbolic segment. -/
def spaceC1 : AddressSpace := ⟨1, [], [], 0⟩

/-- Total solver answering 1 / true / true everywhere. -/
def solverC1 : Solver := ⟨fun _ => some 1, fun _ => some true, fun _ => some true⟩

/-- Pointer with symbolic segment and constant offset 0. -/
def ptrC1 : KValue := ⟨Expr.sym 0, Expr.const 0⟩

/-- The everywhere-failing solver oracle: every `getValue`, `mayBeTrue` and
`mustBeTrue` query returns no definite answer. -/
def solverFail : Solver := ⟨fun _ => none, fun _ => none, fun _ => none⟩

/-- Concrete data for the CoW-invariant and idempotence claims. -/
def moC7 : MemoryObject := ⟨256, Expr.const 8, 0, false⟩

/-- Operation sequence: bind a fresh state, upgrade it, unbind it. -/
def opsC7 : List ASOp := [.bind moC7 os0, .getWr moC7 ⟨0, false, 5⟩, .unbind moC7]

/-- Space with CoW key 5 for the operation-sequence witnesses. -/
def spaceC7 : AddressSpace := ⟨5, [], [], 0⟩

/-- Concrete data for the `getWriteable` idempotence witness: a bound,
non-read-only state owned by a different space (key 3). -/
def moC8 : MemoryObject := ⟨4096, Expr.const 16, 0, false⟩

/-- State bound to `moC8`, owned by CoW key 3. -/
def osC8 : ObjectState := ⟨2, false, 3⟩

/-- Space with CoW key 7 holding `(moC8, osC8)`. -/
def spaceC8 : AddressSpace := ⟨7, [(moC8, osC8)], [], 10⟩

/-- Object whose concrete size is exactly `2 ^ 32`: the value the C++
`unsigned size = CE->getZExtValue();` narrowing truncates to 0. -/
def moC3 : MemoryObject := ⟨4096, Expr.const w32, 0, false⟩

/-- Space holding only `moC3`. -/
def spaceC3 : AddressSpace := ⟨1, [(moC3, os0)], [], 0⟩

/-- Fully concrete flat pointer one byte past `moC3`'s base. -/
def ptrC3 : KValue := ⟨Expr.const 0, Expr.const 4097⟩

/-- Flat object at 4096 of size 10 (scenario object A). -/
def moA2 : MemoryObject := ⟨4096, Expr.const 10, 0, false⟩

/-- Flat object at 8192 of size 10 (scenario object B). -/
def moB2 : MemoryObject := ⟨8192, Expr.const 10, 0, false⟩

/-- Flat object at 12288 of size 10 (scenario object C). -/
def moC2obj : MemoryObject := ⟨12288, Expr.const 10, 0, false⟩

/-- Space with the three flat objects, for the resolution-cap scenario. -/
def spaceC2 : AddressSpace := ⟨1, [(moA2, os0), (moB2, os0), (moC2obj, os0)], [], 0⟩

/-- Total solver making every object reachable: any offset value is 8192,
every predicate is satisfiable, none is valid. -/
def solverC2 : Solver := ⟨fun _ => some 8192, fun _ => some true, fun _ => some false⟩

/-- Flat pointer with a symbolic offset. -/
def ptrC2 : KValue := ⟨Expr.const 0, Expr.sym 0⟩

/-- Space with only objects A and B, for the `maxResolutions == 1` claim. -/
def spaceC9 : AddressSpace := ⟨1, [(moA2, os0), (moB2, os0)], [], 0⟩

/-- Segmented unit-size object number `i` for the symbolic-segment cap claim:
address `i`, segment `i + 1`. -/
def c10mo (i : Nat) : MemoryObject := ⟨i, Expr.const 1, i + 1, false⟩

/-- The objects map holding `c10mo (k-1) … c10mo 0`. -/
def c10objs : Nat → List MemEntry
  | 0 => []
  | k + 1 => (c10mo k, os0) :: c10objs k

/-- The segment map holding the segments of `c10objs k`. -/
def c10segs : Nat → List (Nat × MemoryObject)
  | 0 => []
  | k + 1 => (k + 1, c10mo k) :: c10segs k

/-- The resolution list produced by the symbolic-segment loop over
`c10segs k`. -/
def c10res : Nat → List MemEntry
  | 0 => []
  | k + 1 => (c10mo k, os0) :: c10res k

/-- Space with `m + 1` segmented objects, all reachable for a symbolic
segment. -/
def c10space (m : Nat) : AddressSpace := ⟨1, c10objs (m + 1), c10segs (m + 1), 0⟩

/-- Total solver under which the pointer's segment may equal every non-zero
segment but cannot be zero. -/
def c10solver : Solver :=
  ⟨fun _ => some 0,
   fun e => match e with | .isZero _ => some false | _ => some true,
   fun _ => some false⟩

/-- Pointer with a symbolic segment and constant offset 0. -/
def c10ptr : KValue := ⟨Expr.sym 0, Expr.const 0⟩

/-- Fully constant flat pointer inside object `moA2`, for the bounds-check
witness. -/
def ptrC5w : KValue := ⟨Expr.const 0, Expr.const 4100⟩

/-- Flat object (segment 0) for the segment-map synchronisation
counterexample. -/
def moF : MemoryObject := ⟨100, Expr.const 4, 0, false⟩

/-- Segmented object with segment 7 at address 200. -/
def moS : MemoryObject := ⟨200, Expr.const 4, 7, false⟩

/-- A second, unbound object that also carries segment 7. -/
def moS2 : MemoryObject := ⟨300, Expr.const 4, 7, false⟩

/-- State bound to `moS` (owned by key 1). -/
def osb : ObjectState := ⟨1, false, 1⟩

/-- Space holding `moS` with its segment entry, synchronised. -/
def spaceU : AddressSpace := ⟨1, [(moS, osb)], [(7, moS)], 0⟩

/-- Segmented object (segment 1) at address 4096 of size 8, for the
`resolveOne` bounds-check counterexample. -/
def moS5 : MemoryObject := ⟨4096, Expr.const 8, 1, false⟩

/-- Space binding `moS5` in both maps. -/
def spaceC5 : AddressSpace := ⟨1, [(moS5, os0)], [(1, moS5)], 0⟩

/-- Fully constant segmented pointer with offset 0 — far outside `moS5`. -/
def ptrC5 : KValue := ⟨Expr.const 1, Expr.const 0⟩

/-- The all-zero assignment. -/
def zeroAsn : Nat → Nat := fun _ => 0

/-- The all-one assignment. -/
def oneAsn : Nat → Nat := fun _ => 1

/-- Large flat object covering addresses 100..199. -/
def moOv1 : MemoryObject := ⟨100, Expr.const 100, 0, false⟩

/-- Flat object at 150..159, overlapping `moOv1`. -/
def moOv2 : MemoryObject := ⟨150, Expr.const 10, 0, false⟩

/-- Space with the two overlapping flat objects. -/
def spaceOv : AddressSpace := ⟨1, [(moOv1, os0), (moOv2, os0)], [], 0⟩

/-- Concrete flat pointer at 155, inside both overlapping objects. -/
def ptrOv : KValue := ⟨Expr.const 0, Expr.const 155⟩

/- ------------------------------------------------------------------ -/
/- Helper lemmas.                                                      -/
/- ------------------------------------------------------------------ -/

theorem total_getVal {S : Solver} (hS : TotalSolver S) (e : Expr) :
    ∃ v, S.getValue e = some v := by
  have h := (hS e).1
  exact Option.isSome_iff_exists.mp h

theorem total_may {S : Solver} (hS : TotalSolver S) (e : Expr) :
    ∃ b, S.mayBeTrue e = some b := by
  have h := (hS e).2.1
  exact Option.isSome_iff_exists.mp h

theorem total_must {S : Solver} (hS : TotalSolver S) (e : Expr) :
    ∃ b, S.mustBeTrue e = some b := by
  have h := (hS e).2.2
  exact Option.isSome_iff_exists.mp h

theorem mem_of_objectsReplace {l : List MemEntry} {x e : MemEntry}
    (h : e ∈ objectsReplace l x) : e = x ∨ e ∈ l := by
  induction l with
  | nil => simpa [objectsReplace] using h
  | cons y ys ih =>
    simp only [objectsReplace] at h
    split at h
    · rcases List.mem_cons.mp h with h | h
      · exact Or.inr (List.mem_cons.mpr (Or.inl h))
      · rcases ih h with h | h
        · exact Or.inl h
        · exact Or.inr (List.mem_cons.mpr (Or.inr h))
    · split at h
      · rcases List.mem_cons.mp h with h | h
        · exact Or.inl h
        · exact Or.inr (List.mem_cons.mpr (Or.inr h))
      · rcases List.mem_cons.mp h with h | h
        · exact Or.inl h
        · exact Or.inr h

theorem mem_of_objectsRemove {l : List MemEntry} {mo : MemoryObject} {e : MemEntry}
    (h : e ∈ objectsRemove l mo) : e ∈ l := by
  induction l with
  | nil => simp [objectsRemove] at h
  | cons y ys ih =>
    simp only [objectsRemove] at h
    split at h
    · exact List.mem_cons.mpr (Or.inr h)
    · rcases List.mem_cons.mp h with h | h
      · exact List.mem_cons.mpr (Or.inl h)
      · exact List.mem_cons.mpr (Or.inr (ih h))

theorem cowKey_applyOp (A : AddressSpace) (op : ASOp) :
    (applyOp A op).cowKey = A.cowKey := by
  cases op with
  | bind mo os => rfl
  | unbind mo => rfl
  | getWr mo os =>
    simp only [applyOp, getWriteable]
    split
    · rfl
    · rfl

theorem cowInv_applyOp {A : AddressSpace} {op : ASOp} (h : CowInv A) :
    CowInv (applyOp A op) := by
  cases op with
  | bind mo os =>
    intro e he
    simp only [applyOp, bindObject] at he ⊢
    rcases mem_of_objectsReplace he with rfl | he
    · exact Or.inr rfl
    · exact h e he
  | unbind mo =>
    intro e he
    simp only [applyOp, unbindObject] at he ⊢
    exact h e (mem_of_objectsRemove he)
  | getWr mo os =>
    intro e he
    simp only [applyOp, getWriteable] at he ⊢
    by_cases hcow : A.cowKey = os.copyOnWriteOwner
    · rw [if_pos hcow] at he ⊢
      exact h e he
    · rw [if_neg hcow] at he ⊢
      rcases mem_of_objectsReplace he with rfl | he
      · exact Or.inr rfl
      · exact h e he

theorem resolveOneBackward_ne_fail {S : Solver} {p : KValue} (hS : TotalSolver S) :
    ∀ l : List MemEntry, resolveOneBackward S p l ≠ .fail := by
  intro l
  induction l with
  | nil => simp [resolveOneBackward]
  | cons e rest ih =>
    obtain ⟨b, hb⟩ := total_may hS (boundsFor e.1 p)
    simp only [resolveOneBackward, hb]
    cases b with
    | true => simp
    | false =>
      obtain ⟨c, hc⟩ := total_must hS (Expr.uge p.value (baseFor e.1))
      simp only [hc]
      cases c with
      | true => simp
      | false => simpa using ih

theorem resolveOneForward_ne_fail {S : Solver} {p : KValue} (hS : TotalSolver S) :
    ∀ l : List MemEntry, resolveOneForward S p l ≠ .fail := by
  intro l
  induction l with
  | nil => simp [resolveOneForward]
  | cons e rest ih =>
    obtain ⟨c, hc⟩ := total_must hS (Expr.ult p.value (baseFor e.1))
    simp only [resolveOneForward, hc]
    cases c with
    | true => simp
    | false =>
      obtain ⟨b, hb⟩ := total_may hS (boundsFor e.1 p)
      simp only [hb]
      cases b with
      | true => simp
      | false => simpa using ih

/- ------------------------------------------------------------------ -/
/- Claim theorems.                                                     -/
/- ------------------------------------------------------------------ -/

/-- C7: for every sequence of `bindObject` / `unbindObject` / `getWriteable`
operations (used under their caller-side preconditions) applied to an address
space whose reachable object states all have `copyOnWriteOwner` 0 or `cowKey`,
every object state reachable from the resulting space again has
`copyOnWriteOwner` equal to 0 or to the space's `cowKey`. -/
theorem C7_cow_owner_invariant (A : AddressSpace) (ops : List ASOp)
    (hinv : CowInv A) (hval : ValidOps A ops) : CowInv (applyOps A ops) := by
  induction ops generalizing A with
  | nil => exact hinv
  | cons op rest ih => exact ih (applyOp A op) (cowInv_applyOp hinv) hval.2

/-- Witness for C7 at a concrete bind/getWriteable/unbind sequence. -/
theorem C7_witness :
    CowInv spaceC7 ∧ ValidOps spaceC7 opsC7 ∧ CowInv (applyOps spaceC7 opsC7) := by
  have h1 : CowInv spaceC7 := by
    intro e he
    simp [spaceC7] at he
  have h2 : ValidOps spaceC7 opsC7 := by
    refine ⟨⟨rfl, ?_, ?_⟩, ⟨?_, rfl⟩, ⟨⟨0, false, 5⟩, ?_⟩, trivial⟩
    · intro e he
      simp [spaceC7] at he
    · intro h
      exact absurd rfl h
    · decide
    · decide
  exact ⟨h1, h2, C7_cow_owner_invariant spaceC7 opsC7 h1 h2⟩

/-- C8: `getWriteable` is idempotent — applying it to its own output returns
the very same space and state (no clone, no rebinding). -/
theorem C8_getWriteable_idempotent (A : AddressSpace) (mo : MemoryObject)
    (os : ObjectState) (hro : os.readOnly = false) (hb : (mo, os) ∈ A.objects) :
    getWriteable (getWriteable A mo os).1 mo (getWriteable A mo os).2 =
      getWriteable A mo os := by
  by_cases h : A.cowKey = os.copyOnWriteOwner
  · simp [getWriteable, h]
  · simp [getWriteable, h]

/-- Witness for C8 at a bound, non-read-only state owned by another space. -/
theorem C8_witness :
    osC8.readOnly = false ∧ (moC8, osC8) ∈ spaceC8.objects ∧
      getWriteable (getWriteable spaceC8 moC8 osC8).1 moC8
          (getWriteable spaceC8 moC8 osC8).2 =
        getWriteable spaceC8 moC8 osC8 := by
  refine ⟨rfl, by decide, ?_⟩
  exact C8_getWriteable_idempotent spaceC8 moC8 osC8 rfl (by decide)

/-- C1 counterexample: a never-failing solver (so no solver call can fail) on
the concretised non-zero-segment path, where `resolveOne` nevertheless returns
`false` because the segment lookup finds no object — refuting "returns false
iff a solver call failed". -/
theorem C1_counterexample :
    TotalSolver solverC1 ∧ (resolveOne spaceC1 solverC1 ptrC1).ret = false := by
  constructor
  · intro e
    exact ⟨rfl, rfl, rfl⟩
  · rfl

/-- C1 amended: over an arbitrary (possibly failing) solver, `resolveOne`
returns `false` iff the pointer is not fully constant and either a solver
call made during the run fails — the segment concretisation, the offset
concretisation, or a query inside the backward/forward walks — or the
(possibly concretised) segment is non-zero and the constant-address
resolution misses.  On the non-zero-segment path the `success` out-parameter
is left unassigned, while on the fully-constant and zero-segment paths a
`true` return always assigns `success`. -/
theorem C1_amended_resolveOne_return (A : AddressSpace) (S : Solver) (p : KValue) :
    ((resolveOne A S p).ret = false ↔
      (p.isConstant = false ∧
        (concretizedSegment S p = none ∨
          (∃ s, concretizedSegment S p = some s ∧ s ≠ 0 ∧
            resolveConstantAddress A ⟨Expr.const s, p.value⟩ = none) ∨
          (concretizedSegment S p = some 0 ∧
            (S.getValue p.value = none ∨
              ∃ u, S.getValue p.value = some u ∧
                resolveOneFast A (u % w64) = none ∧
                (resolveOneBackward S p (backEntries A (u % w64)) = WalkOut.fail ∨
                  (resolveOneBackward S p (backEntries A (u % w64)) = WalkOut.fallthrough ∧
                    resolveOneForward S p (fwdEntries A (u % w64)) = WalkOut.fail)))))))
    ∧ (∀ s, p.isConstant = false → concretizedSegment S p = some s → s ≠ 0 →
        (resolveOne A S p).success = none)
    ∧ ((resolveOne A S p).ret = true →
        (p.isConstant = true ∨ concretizedSegment S p = some 0) →
        (resolveOne A S p).success.isSome = true) := by
  cases hc : p.isConstant with
  | true =>
    have h1 : (resolveOne A S p).ret = true ∧ (resolveOne A S p).success.isSome = true := by
      rcases hr : resolveConstantAddress A p with _ | e <;>
        simp [resolveOne, hc, hr]
    refine ⟨?_, ?_, ?_⟩
    · simp [h1.1]
    · intro s hfalse
      exact absurd hfalse (by simp)
    · intro _ _
      exact h1.2
  | false =>
    rcases hcs : concretizedSegment S p with _ | s
    · have hform : resolveOne A S p = ⟨false, none, none⟩ := by
        simp [resolveOne, hc, hcs]
      refine ⟨?_, ?_, ?_⟩
      · simp [hform]
      · intro s2 _ hs2 _
        exact absurd hs2 (by simp)
      · intro hret _
        rw [hform] at hret
        exact absurd hret (by simp)
    · by_cases hs : s = 0
      · subst hs
        rcases hv : S.getValue p.value with _ | v
        · have hform : resolveOne A S p = ⟨false, none, none⟩ := by
            simp [resolveOne, hc, hcs, hv]
          refine ⟨?_, ?_, ?_⟩
          · simp [hform]
          · intro s2 _ hs2 hne
            exact absurd (Option.some_injective _ hs2).symm hne
          · intro hret _
            rw [hform] at hret
            exact absurd hret (by simp)
        · have hpart2 : ∀ s2, True → (some 0 : Option Nat) = some s2 →
              s2 ≠ 0 → (resolveOne A S p).success = none := by
            intro s2 _ hs2 hne
            exact absurd (Option.some_injective _ hs2).symm hne
          simp only [backEntries, fwdEntries]
          rcases hprev : lookupPrev A.objects (v % w64) with _ | res
          · have hfast : resolveOneFast A (v % w64) = none := by
              simp [resolveOneFast, hprev]
            rcases hbw : resolveOneBackward S p
                ((A.objects.takeWhile (fun e => e.1.address ≤ v % w64)).reverse) with
              _ | e | _
            · have hform : resolveOne A S p = ⟨false, none, none⟩ := by
                simp [resolveOne, hc, hcs, hv, hprev, hbw]
              refine ⟨?_, hpart2, ?_⟩
              · simp [hform, hfast, hbw]
              · intro hret _
                rw [hform] at hret
                exact absurd hret (by simp)
            · have hform : resolveOne A S p = ⟨true, some true, some e⟩ := by
                simp [resolveOne, hc, hcs, hv, hprev, hbw]
              refine ⟨?_, hpart2, ?_⟩
              · simp [hform, hfast, hbw]
              · intro _ _
                simp [hform]
            · rcases hfw : resolveOneForward S p
                  (A.objects.dropWhile (fun e => e.1.address ≤ v % w64)) with _ | e | _
              · have hform : resolveOne A S p = ⟨false, none, none⟩ := by
                  simp [resolveOne, hc, hcs, hv, hprev, hbw, hfw]
                refine ⟨?_, hpart2, ?_⟩
                · simp [hform, hfast, hbw, hfw]
                · intro hret _
                  rw [hform] at hret
                  exact absurd hret (by simp)
              · have hform : resolveOne A S p = ⟨true, some true, some e⟩ := by
                  simp [resolveOne, hc, hcs, hv, hprev, hbw, hfw]
                refine ⟨?_, hpart2, ?_⟩
                · simp [hform, hfast, hbw, hfw]
                · intro _ _
                  simp [hform]
              · have hform : resolveOne A S p = ⟨true, some false, none⟩ := by
                  simp [resolveOne, hc, hcs, hv, hprev, hbw, hfw]
                refine ⟨?_, hpart2, ?_⟩
                · simp [hform, hfast, hbw, hfw]
                · intro _ _
                  simp [hform]
          · rcases hsz : res.1.size.asConst with _ | c
            · have hfast : resolveOneFast A (v % w64) = none := by
                simp [resolveOneFast, hprev, hsz]
              rcases hbw : resolveOneBackward S p
                  ((A.objects.takeWhile (fun e => e.1.address ≤ v % w64)).reverse) with
                _ | e | _
              · have hform : resolveOne A S p = ⟨false, none, none⟩ := by
                  simp [resolveOne, hc, hcs, hv, hprev, hsz, hbw]
                refine ⟨?_, hpart2, ?_⟩
                · simp [hform, hfast, hbw]
                · intro hret _
                  rw [hform] at hret
                  exact absurd hret (by simp)
              · have hform : resolveOne A S p = ⟨true, some true, some e⟩ := by
                  simp [resolveOne, hc, hcs, hv, hprev, hsz, hbw]
                refine ⟨?_, hpart2, ?_⟩
                · simp [hform, hfast, hbw]
                · intro _ _
                  simp [hform]
              · rcases hfw : resolveOneForward S p
                    (A.objects.dropWhile (fun e => e.1.address ≤ v % w64)) with _ | e | _
                · have hform : resolveOne A S p = ⟨false, none, none⟩ := by
                    simp [resolveOne, hc, hcs, hv, hprev, hsz, hbw, hfw]
                  refine ⟨?_, hpart2, ?_⟩
                  · simp [hform, hfast, hbw, hfw]
                  · intro hret _
                    rw [hform] at hret
                    exact absurd hret (by simp)
                · have hform : resolveOne A S p = ⟨true, some true, some e⟩ := by
                    simp [resolveOne, hc, hcs, hv, hprev, hsz, hbw, hfw]
                  refine ⟨?_, hpart2, ?_⟩
                  · simp [hform, hfast, hbw, hfw]
                  · intro _ _
                    simp [hform]
                · have hform : resolveOne A S p = ⟨true, some false, none⟩ := by
                    simp [resolveOne, hc, hcs, hv, hprev, hsz, hbw, hfw]
                  refine ⟨?_, hpart2, ?_⟩
                  · simp [hform, hfast, hbw, hfw]
                  · intro _ _
                    simp [hform]
            · by_cases hlt : sub64 (v % w64) res.1.address < c
              · have hfast : resolveOneFast A (v % w64) = some res := by
                  simp [resolveOneFast, hprev, hsz, hlt]
                have hform : resolveOne A S p = ⟨true, some true, some res⟩ := by
                  simp [resolveOne, hc, hcs, hv, hprev, hsz, hlt]
                refine ⟨?_, hpart2, ?_⟩
                · simp [hform, hfast]
                · intro _ _
                  simp [hform]
              · have hfast : resolveOneFast A (v % w64) = none := by
                  simp [resolveOneFast, hprev, hsz, hlt]
                rcases hbw : resolveOneBackward S p
                    ((A.objects.takeWhile (fun e => e.1.address ≤ v % w64)).reverse) with
                  _ | e | _
                · have hform : resolveOne A S p = ⟨false, none, none⟩ := by
                    simp [resolveOne, hc, hcs, hv, hprev, hsz, hlt, hbw]
                  refine ⟨?_, hpart2, ?_⟩
                  · simp [hform, hfast, hbw]
                  · intro hret _
                    rw [hform] at hret
                    exact absurd hret (by simp)
                · have hform : resolveOne A S p = ⟨true, some true, some e⟩ := by
                    simp [resolveOne, hc, hcs, hv, hprev, hsz, hlt, hbw]
                  refine ⟨?_, hpart2, ?_⟩
                  · simp [hform, hfast, hbw]
                  · intro _ _
                    simp [hform]
                · rcases hfw : resolveOneForward S p
                      (A.objects.dropWhile (fun e => e.1.address ≤ v % w64)) with _ | e | _
                  · have hform : resolveOne A S p = ⟨false, none, none⟩ := by
                      simp [resolveOne, hc, hcs, hv, hprev, hsz, hlt, hbw, hfw]
                    refine ⟨?_, hpart2, ?_⟩
                    · simp [hform, hfast, hbw, hfw]
                    · intro hret _
                      rw [hform] at hret
                      exact absurd hret (by simp)
                  · have hform : resolveOne A S p = ⟨true, some true, some e⟩ := by
                      simp [resolveOne, hc, hcs, hv, hprev, hsz, hlt, hbw, hfw]
                    refine ⟨?_, hpart2, ?_⟩
                    · simp [hform, hfast, hbw, hfw]
                    · intro _ _
                      simp [hform]
                  · have hform : resolveOne A S p = ⟨true, some false, none⟩ := by
                      simp [resolveOne, hc, hcs, hv, hprev, hsz, hlt, hbw, hfw]
                    refine ⟨?_, hpart2, ?_⟩
                    · simp [hform, hfast, hbw, hfw]
                    · intro _ _
                      simp [hform]
      · have hform : resolveOne A S p =
            (match resolveConstantAddress A ⟨Expr.const s, p.value⟩ with
             | some e => ⟨true, none, some e⟩
             | none => ⟨false, none, none⟩) := by
          simp [resolveOne, hc, hcs, hs]
        refine ⟨?_, ?_, ?_⟩
        · rcases hr : resolveConstantAddress A ⟨Expr.const s, p.value⟩ with _ | e <;>
            simp [hform, hr, hs]
        · intro s2 _ _ _
          rcases hr : resolveConstantAddress A ⟨Expr.const s, p.value⟩ with _ | e <;>
            simp [hform, hr]
        · intro hret hdis
          rcases hdis with hdis | hdis
          · exact absurd hdis (by simp)
          · exact absurd (Option.some_injective _ hdis) hs

theorem cpio_one_total {S : Solver} {p : KValue} {op : MemEntry}
    {rl rl' : List MemEntry} {m c : Nat} (hS : TotalSolver S)
    (hcp : checkPointerInObject S p op rl m = (c, rl')) (hc1 : c = 1) :
    rl'.length = m ∧ 2 ≤ m := by
  obtain ⟨b, hb⟩ := total_may hS (boundsFor op.1 p)
  simp only [checkPointerInObject, hb] at hcp
  cases b with
  | false =>
    simp only [Bool.false_eq_true, if_false] at hcp
    cases hcp
    omega
  | true =>
    simp only [if_true] at hcp
    split at hcp
    next hlen1 =>
      obtain ⟨cm, hcm⟩ := total_must hS (boundsFor op.1 p)
      rw [hcm] at hcp
      cases cm with
      | true => cases hcp; omega
      | false => cases hcp; omega
    next hlen1 =>
      split at hcp
      next hlenm =>
        cases hcp
        have hlen : (rl ++ [op]).length = rl.length + 1 := by simp
        exact ⟨hlenm, by omega⟩
      next hlenm => cases hcp; omega

theorem flatBackward_incomplete_total {S : Solver} {p : KValue} {m : Nat}
    {tmo : Nat → Bool} (hS : TotalSolver S) (hto : ∀ k, tmo k = false) :
    ∀ (bs rl : List MemEntry) (t : Nat) (out : FlatOut) (rl' : List MemEntry) (t' : Nat),
      flatBackward S p m tmo bs rl t = (out, rl', t') → out = .incomplete →
      rl'.length = m ∧ 2 ≤ m := by
  intro bs
  induction bs with
  | nil =>
    intro rl t out rl' t' h hout
    simp only [flatBackward] at h
    cases h
    cases hout
  | cons e rest ih =>
    intro rl t out rl' t' h hout
    subst hout
    simp only [flatBackward, hto t, Bool.false_eq_true, if_false] at h
    rcases hcp : checkPointerInObject S p e rl m with ⟨c, rlc⟩
    rw [hcp] at h
    by_cases h0 : c = 0
    · simp only [h0, if_pos rfl] at h
      cases h
    · rw [if_neg (by simpa using h0)] at h
      by_cases h1 : c = 1
      · rw [if_pos (by simpa using h1)] at h
        cases h
        exact cpio_one_total hS hcp h1
      · rw [if_neg (by simpa using h1)] at h
        obtain ⟨cm, hcm⟩ := total_must hS (Expr.uge p.value (baseFor e.1))
        rw [hcm] at h
        cases cm with
        | true => cases h
        | false => exact ih _ _ _ _ _ h rfl

theorem flatForward_incomplete_total {S : Solver} {p : KValue} {m : Nat}
    {tmo : Nat → Bool} (hS : TotalSolver S) (hto : ∀ k, tmo k = false) :
    ∀ (fs rl : List MemEntry) (t : Nat) (out : FlatOut) (rl' : List MemEntry) (t' : Nat),
      flatForward S p m tmo fs rl t = (out, rl', t') → out = .incomplete →
      rl'.length = m ∧ 2 ≤ m := by
  intro fs
  induction fs with
  | nil =>
    intro rl t out rl' t' h hout
    simp only [flatForward] at h
    cases h
    cases hout
  | cons e rest ih =>
    intro rl t out rl' t' h hout
    subst hout
    simp only [flatForward, hto t, Bool.false_eq_true, if_false] at h
    obtain ⟨cm, hcm⟩ := total_must hS (Expr.ult p.value (baseFor e.1))
    rw [hcm] at h
    cases cm with
    | true => cases h
    | false =>
      rcases hcp : checkPointerInObject S p e rl m with ⟨c, rlc⟩
      rw [hcp] at h
      by_cases h0 : c = 0
      · simp only [h0, if_pos rfl] at h
        cases h
      · rw [if_neg (by simpa using h0)] at h
        by_cases h1 : c = 1
        · rw [if_pos (by simpa using h1)] at h
          cases h
          exact cpio_one_total hS hcp h1
        · rw [if_neg (by simpa using h1)] at h
          exact ih _ _ _ _ _ h rfl

theorem rcs_true_total {A : AddressSpace} {S : Solver} {p : KValue} {m : Nat}
    {tmo : Nat → Bool} {rl : List MemEntry} {t : Nat}
    (hS : TotalSolver S) (hto : ∀ k, tmo k = false)
    (h : (resolveConstantSegment A S p m tmo rl t).1 = true) :
    (resolveConstantSegment A S p m tmo rl t).2.1.length = m ∧ 2 ≤ m := by
  rcases hseg : p.segment.asConst with _ | s
  · simp [resolveConstantSegment, hseg] at h
  · by_cases hs : s = 0
    · subst hs
      obtain ⟨v, hv⟩ := total_getVal hS p.value
      rcases hbw : flatBackward S p m tmo
          ((A.objects.takeWhile (fun e => e.1.address ≤ v % w64)).reverse) rl t with
        ⟨out, rl1, t1⟩
      cases out with
      | incomplete =>
        have hz := flatBackward_incomplete_total hS hto _ rl t _ rl1 t1 hbw rfl
        simp only [resolveConstantSegment, hseg, hv, hbw]
        simpa using hz
      | complete =>
        simp only [resolveConstantSegment, hseg, hv, hbw] at h
        simp at h
      | next =>
        rcases hfw : flatForward S p m tmo
            (A.objects.dropWhile (fun e => e.1.address ≤ v % w64)) rl1 t1 with
          ⟨out2, rl2, t2⟩
        cases out2 with
        | incomplete =>
          have hz := flatForward_incomplete_total hS hto _ rl1 t1 _ rl2 t2 hfw rfl
          simp only [resolveConstantSegment, hseg, hv, hbw, hfw]
          simpa using hz
        | complete =>
          simp only [resolveConstantSegment, hseg, hv, hbw, hfw] at h
          simp at h
        | next =>
          simp only [resolveConstantSegment, hseg, hv, hbw, hfw] at h
          simp at h
    · rcases hr : resolveConstantAddress A p with _ | e <;>
        simp [resolveConstantSegment, hseg, hs, hr] at h

/-- C3 (code bug): with a concrete object size of exactly `2 ^ 32` the
narrowing `unsigned size = CE->getZExtValue();` truncates the size to 0, so a
fully concrete in-bounds pointer (`a - mo.address < size` under 64-bit
arithmetic) resolves to nothing, contradicting the in-code comment and the
claimed in-bounds condition. -/
theorem C3_size_truncation :
    lookupPrev spaceC3.objects 4097 = some (moC3, os0) ∧
    moC3.size = Expr.const w32 ∧
    sub64 4097 moC3.address < w32 ∧
    resolveConstantAddress spaceC3 ptrC3 = none := by
  refine ⟨by decide, rfl, by decide, by decide⟩

/-- C9: with `maxResolutions = 1` the cap can never make the flat enumeration
incomplete — under a never-failing solver and no timeout,
`resolveConstantSegment` always reports complete — and it can still append
more than one object: on two overlapping candidates it returns both objects
with a complete (`false`) return. -/
theorem C9_cap_one_never_incomplete :
    (∀ (A : AddressSpace) (S : Solver) (p : KValue) (tmo : Nat → Bool)
        (rl : List MemEntry) (t : Nat),
      TotalSolver S → (∀ k, tmo k = false) →
      (resolveConstantSegment A S p 1 tmo rl t).1 = false) ∧
    ((resolveConstantSegment spaceC9 solverC2 ptrC2 1 (fun _ => false) [] 0).1 = false ∧
      (resolveConstantSegment spaceC9 solverC2 ptrC2 1 (fun _ => false) [] 0).2.1 =
        [(moB2, os0), (moA2, os0)]) := by
  constructor
  · intro A S p tmo rl t hS hto
    by_cases hr : (resolveConstantSegment A S p 1 tmo rl t).1 = true
    · exact absurd (rcs_true_total hS hto hr).2 (by omega)
    · simpa using hr
  · exact ⟨by decide, by decide⟩

/-- Witness for C9 at the concrete two-object instance. -/
theorem C9_witness :
    TotalSolver solverC2 ∧
      (resolveConstantSegment spaceC9 solverC2 ptrC2 1 (fun _ => false) [] 0).1 = false := by
  have hT : TotalSolver solverC2 := fun e => ⟨rfl, rfl, rfl⟩
  exact ⟨hT,
    C9_cap_one_never_incomplete.1 spaceC9 solverC2 ptrC2 (fun _ => false) [] 0 hT
      (fun k => rfl)⟩

theorem c10_lookup : ∀ n j, j < n →
    objectsLookup (c10objs n) (c10mo j) = some (c10mo j, os0) := by
  intro n
  induction n with
  | zero => intro j hj; omega
  | succ k ih =>
    intro j hj
    by_cases hjk : j = k
    · subst hjk
      simp [c10objs, objectsLookup, c10mo]
    · have hj2 : j < k := by omega
      have hne : (c10mo k).address ≠ (c10mo j).address := by
        simp [c10mo]
        omega
      simp only [c10objs, objectsLookup, if_neg hne]
      exact ih j hj2

theorem c10_segLoop (m : Nat) : ∀ k, k ≤ m + 1 → ∀ (rl : List MemEntry) (t : Nat),
    segLoop (c10space m) c10solver c10ptr (fun _ => false) (c10segs k) rl t =
      (false, rl ++ c10res k) := by
  intro k
  induction k with
  | zero => intro _ rl t; simp [c10segs, c10res, segLoop]
  | succ j ih =>
    intro hk rl t
    have hlook : objectsLookup (c10space m).objects (c10mo j) = some (c10mo j, os0) :=
      c10_lookup (m + 1) j (by omega)
    have hmay : c10solver.mayBeTrue (Expr.eq c10ptr.segment (Expr.const (j + 1))) =
        some true := rfl
    simp only [c10segs, segLoop, Bool.false_eq_true, if_false, hmay, hlook]
    rw [ih (by omega) (rl ++ [(c10mo j, os0)]) (t + 1)]
    simp [c10res]

theorem c10_res_length : ∀ k, (c10res k).length = k := by
  intro k
  induction k with
  | zero => rfl
  | succ j ih => simp [c10res, ih]

/-- C10: the symbolic-segment loop of `resolve` never compares the resolution
list against `maxResolutions`: for every non-zero cap `m`, the instance with
`m + 1` reachable segments appends all `m + 1` objects and still returns
complete (`false`), exceeding the cap. -/
theorem C10_symbolic_loop_ignores_cap (m : Nat) (hm : m ≠ 0) :
    resolve (c10space m) c10solver c10ptr m (fun _ => false) =
      (false, c10res (m + 1)) ∧
    m < (resolve (c10space m) c10solver c10ptr m (fun _ => false)).2.length := by
  have hres : resolve (c10space m) c10solver c10ptr m (fun _ => false) =
      (false, c10res (m + 1)) := by
    have hac : c10ptr.segment.asConst = none := rfl
    have hisz : c10solver.mayBeTrue (Expr.isZero c10ptr.segment) = some false := rfl
    simp only [resolve, hac, hisz, Bool.false_eq_true, if_false]
    rw [show (c10space m).segmentMap = c10segs (m + 1) from rfl]
    rw [c10_segLoop m (m + 1) (le_refl _) [] 0]
    simp
  refine ⟨hres, ?_⟩
  rw [hres]
  simp [c10_res_length]

/-- Witness for C10 at cap 1 with two reachable segments. -/
theorem C10_witness :
    resolve (c10space 1) c10solver c10ptr 1 (fun _ => false) = (false, c10res 2) ∧
      1 < (resolve (c10space 1) c10solver c10ptr 1 (fun _ => false)).2.length :=
  C10_symbolic_loop_ignores_cap 1 (by omega)

theorem pairwise_rel_of_mem {α : Type} {R : α → α → Prop} {l : List α}
    (h : l.Pairwise R) {a b : α} (ha : a ∈ l) (hb : b ∈ l) (hne : a ≠ b) :
    R a b ∨ R b a := by
  induction h with
  | nil => simp at ha
  | cons hr hp ih =>
    rcases List.mem_cons.mp ha with rfl | ha2
    · rcases List.mem_cons.mp hb with rfl | hb2
      · exact absurd rfl hne
      · exact Or.inl (hr b hb2)
    · rcases List.mem_cons.mp hb with rfl | hb2
      · exact Or.inr (hr a ha2)
      · exact ih ha2 hb2

theorem entry_unique_of_pairwise {l : List MemEntry}
    (h : l.Pairwise (fun a b => a.1.address < b.1.address))
    {e1 e2 : MemEntry} (h1 : e1 ∈ l) (h2 : e2 ∈ l)
    (haddr : e1.1.address = e2.1.address) : e1 = e2 := by
  by_cases hne : e1 = e2
  · exact hne
  · rcases pairwise_rel_of_mem h h1 h2 hne with h' | h' <;> omega

theorem mem_objectsReplace_iff {l : List MemEntry} {x : MemEntry}
    (h : l.Pairwise (fun a b => a.1.address < b.1.address)) {e : MemEntry} :
    e ∈ objectsReplace l x ↔ e = x ∨ (e ∈ l ∧ e.1.address ≠ x.1.address) := by
  induction l with
  | nil => simp [objectsReplace]
  | cons y ys ih =>
    obtain ⟨hy, h2⟩ := List.pairwise_cons.mp h
    by_cases hlt : y.1.address < x.1.address
    · simp only [objectsReplace, if_pos hlt]
      constructor
      · intro he
        rcases List.mem_cons.mp he with rfl | he
        · exact Or.inr ⟨List.mem_cons_self _ _, by omega⟩
        · rcases (ih h2).mp he with rfl | ⟨hm, hne⟩
          · exact Or.inl rfl
          · exact Or.inr ⟨List.mem_cons.mpr (Or.inr hm), hne⟩
      · intro he
        rcases he with rfl | ⟨hm, hne⟩
        · exact List.mem_cons.mpr (Or.inr ((ih h2).mpr (Or.inl rfl)))
        · rcases List.mem_cons.mp hm with rfl | hm
          · exact List.mem_cons.mpr (Or.inl rfl)
          · exact List.mem_cons.mpr (Or.inr ((ih h2).mpr (Or.inr ⟨hm, hne⟩)))
    · by_cases heq : y.1.address = x.1.address
      · simp only [objectsReplace, if_neg hlt, if_pos heq]
        constructor
        · intro he
          rcases List.mem_cons.mp he with rfl | he
          · exact Or.inl rfl
          · have := hy e he
            exact Or.inr ⟨List.mem_cons.mpr (Or.inr he), by omega⟩
        · intro he
          rcases he with rfl | ⟨hm, hne⟩
          · exact List.mem_cons_self _ _
          · rcases List.mem_cons.mp hm with rfl | hm
            · exact absurd heq hne
            · exact List.mem_cons.mpr (Or.inr hm)
      · simp only [objectsReplace, if_neg hlt, if_neg heq]
        constructor
        · intro he
          rcases List.mem_cons.mp he with rfl | he
          · exact Or.inl rfl
          · rcases List.mem_cons.mp he with rfl | he
            · exact Or.inr ⟨List.mem_cons_self _ _, by omega⟩
            · have := hy e he
              exact Or.inr ⟨List.mem_cons.mpr (Or.inr he), by omega⟩
        · intro he
          rcases he with rfl | ⟨hm, hne⟩
          · exact List.mem_cons_self _ _
          · exact List.mem_cons.mpr (Or.inr hm)

theorem pairwise_objectsReplace {l : List MemEntry} {x : MemEntry}
    (h : l.Pairwise (fun a b => a.1.address < b.1.address)) :
    (objectsReplace l x).Pairwise (fun a b => a.1.address < b.1.address) := by
  induction l with
  | nil => simp [objectsReplace]
  | cons y ys ih =>
    obtain ⟨hy, h2⟩ := List.pairwise_cons.mp h
    by_cases hlt : y.1.address < x.1.address
    · simp only [objectsReplace, if_pos hlt]
      refine List.pairwise_cons.mpr ⟨?_, ih h2⟩
      intro b hb
      rcases mem_of_objectsReplace hb with rfl | hb
      · exact hlt
      · exact hy b hb
    · by_cases heq : y.1.address = x.1.address
      · simp only [objectsReplace, if_neg hlt, if_pos heq]
        refine List.pairwise_cons.mpr ⟨?_, h2⟩
        intro b hb
        have := hy b hb
        omega
      · simp only [objectsReplace, if_neg hlt, if_neg heq]
        refine List.pairwise_cons.mpr ⟨?_, h⟩
        intro b hb
        rcases List.mem_cons.mp hb with rfl | hb
        · omega
        · have := hy b hb
          omega

theorem mem_objectsRemove_iff {l : List MemEntry} {mo : MemoryObject}
    (h : l.Pairwise (fun a b => a.1.address < b.1.address)) {e : MemEntry} :
    e ∈ objectsRemove l mo ↔ e ∈ l ∧ e.1.address ≠ mo.address := by
  induction l with
  | nil => simp [objectsRemove]
  | cons y ys ih =>
    obtain ⟨hy, h2⟩ := List.pairwise_cons.mp h
    by_cases heq : y.1.address = mo.address
    · simp only [objectsRemove, if_pos heq]
      constructor
      · intro he
        have := hy e he
        exact ⟨List.mem_cons.mpr (Or.inr he), by omega⟩
      · rintro ⟨hm, hne⟩
        rcases List.mem_cons.mp hm with rfl | hm
        · exact absurd heq hne
        · exact hm
    · simp only [objectsRemove, if_neg heq]
      constructor
      · intro he
        rcases List.mem_cons.mp he with rfl | he
        · exact ⟨List.mem_cons_self _ _, heq⟩
        · obtain ⟨hm, hne⟩ := (ih h2).mp he
          exact ⟨List.mem_cons.mpr (Or.inr hm), hne⟩
      · rintro ⟨hm, hne⟩
        rcases List.mem_cons.mp hm with rfl | hm
        · exact List.mem_cons_self _ _
        · exact List.mem_cons.mpr (Or.inr ((ih h2).mpr ⟨hm, hne⟩))

theorem pairwise_objectsRemove {l : List MemEntry} {mo : MemoryObject}
    (h : l.Pairwise (fun a b => a.1.address < b.1.address)) :
    (objectsRemove l mo).Pairwise (fun a b => a.1.address < b.1.address) := by
  induction l with
  | nil => simp [objectsRemove]
  | cons y ys ih =>
    obtain ⟨hy, h2⟩ := List.pairwise_cons.mp h
    by_cases heq : y.1.address = mo.address
    · simp only [objectsRemove, if_pos heq]
      exact h2
    · simp only [objectsRemove, if_neg heq]
      refine List.pairwise_cons.mpr ⟨?_, ih h2⟩
      intro b hb
      exact hy b (mem_of_objectsRemove hb)

theorem mem_of_segReplace {m : List (Nat × MemoryObject)} {s : Nat}
    {mo : MemoryObject} {x : Nat × MemoryObject}
    (h : x ∈ segReplace m s mo) : x = (s, mo) ∨ x ∈ m := by
  induction m with
  | nil => simpa [segReplace] using h
  | cons y ys ih =>
    simp only [segReplace] at h
    split at h
    · rcases List.mem_cons.mp h with h | h
      · exact Or.inr (List.mem_cons.mpr (Or.inl h))
      · rcases ih h with h | h
        · exact Or.inl h
        · exact Or.inr (List.mem_cons.mpr (Or.inr h))
    · split at h
      · rcases List.mem_cons.mp h with h | h
        · exact Or.inl h
        · exact Or.inr (List.mem_cons.mpr (Or.inr h))
      · rcases List.mem_cons.mp h with h | h
        · exact Or.inl h
        · exact Or.inr h

theorem mem_of_segRemove {m : List (Nat × MemoryObject)} {s : Nat}
    {x : Nat × MemoryObject} (h : x ∈ segRemove m s) : x ∈ m := by
  induction m with
  | nil => simp [segRemove] at h
  | cons y ys ih =>
    simp only [segRemove] at h
    split at h
    · exact List.mem_cons.mpr (Or.inr h)
    · rcases List.mem_cons.mp h with h | h
      · exact List.mem_cons.mpr (Or.inl h)
      · exact List.mem_cons.mpr (Or.inr (ih h))

theorem pairwise_segReplace {m : List (Nat × MemoryObject)} {s : Nat}
    {mo : MemoryObject} (h : m.Pairwise (fun a b => a.1 < b.1)) :
    (segReplace m s mo).Pairwise (fun a b => a.1 < b.1) := by
  induction m with
  | nil => simp [segReplace]
  | cons y ys ih =>
    obtain ⟨hy, h2⟩ := List.pairwise_cons.mp h
    by_cases hlt : y.1 < s
    · simp only [segReplace, if_pos hlt]
      refine List.pairwise_cons.mpr ⟨?_, ih h2⟩
      intro b hb
      rcases mem_of_segReplace hb with rfl | hb
      · exact hlt
      · exact hy b hb
    · by_cases heq : y.1 = s
      · simp only [segReplace, if_neg hlt, if_pos heq]
        refine List.pairwise_cons.mpr ⟨?_, h2⟩
        intro b hb
        have := hy b hb
        omega
      · simp only [segReplace, if_neg hlt, if_neg heq]
        refine List.pairwise_cons.mpr ⟨?_, h⟩
        intro b hb
        rcases List.mem_cons.mp hb with rfl | hb
        · omega
        · have := hy b hb
          omega

theorem pairwise_segRemove {m : List (Nat × MemoryObject)} {s : Nat}
    (h : m.Pairwise (fun a b => a.1 < b.1)) :
    (segRemove m s).Pairwise (fun a b => a.1 < b.1) := by
  induction m with
  | nil => simp [segRemove]
  | cons y ys ih =>
    obtain ⟨hy, h2⟩ := List.pairwise_cons.mp h
    by_cases heq : y.1 = s
    · simp only [segRemove, if_pos heq]
      exact h2
    · simp only [segRemove, if_neg heq]
      refine List.pairwise_cons.mpr ⟨?_, ih h2⟩
      intro b hb
      exact hy b (mem_of_segRemove hb)

theorem segLookup_segReplace :
    ∀ (m : List (Nat × MemoryObject)) (s : Nat) (mo : MemoryObject) (s' : Nat),
      segLookup (segReplace m s mo) s' =
        if s' = s then some mo else segLookup m s' := by
  intro m s mo s'
  induction m with
  | nil =>
    by_cases h : s' = s
    · subst h
      simp [segReplace, segLookup]
    · have h2 : ¬ s = s' := fun hh => h hh.symm
      simp [segReplace, segLookup, h, h2]
  | cons y ys ih =>
    rcases y with ⟨k, v⟩
    by_cases h1 : k < s
    · by_cases h2 : k = s'
      · subst h2
        have h3 : ¬ k = s := by omega
        have h4 : ¬ k = s := h3
        simp [segReplace, segLookup, h1, h3]
      · simp [segReplace, segLookup, h1, h2, ih]
    · by_cases h3 : k = s
      · subst h3
        by_cases h4 : s' = k
        · subst h4
          simp [segReplace, segLookup, h1]
        · have h5 : ¬ k = s' := fun hh => h4 hh.symm
          simp [segReplace, segLookup, h1, h4, h5]
      · by_cases h4 : s' = s
        · subst h4
          have h5 : ¬ k = s' := fun hh => h3 hh
          simp [segReplace, segLookup, h1, h3, h5]
        · have h5 : ¬ s = s' := fun hh => h4 hh.symm
          simp [segReplace, segLookup, h1, h3, h4, h5]

theorem segLookup_eq_none_of_lt {m : List (Nat × MemoryObject)} {s : Nat}
    (h : ∀ x ∈ m, s < x.1) : segLookup m s = none := by
  induction m with
  | nil => rfl
  | cons y ys ih =>
    have hy := h y (List.mem_cons_self _ _)
    simp only [segLookup]
    rw [if_neg (by omega)]
    exact ih (fun x hx => h x (List.mem_cons.mpr (Or.inr hx)))

theorem segLookup_segRemove {m : List (Nat × MemoryObject)}
    (h : m.Pairwise (fun a b => a.1 < b.1)) (s s' : Nat) :
    segLookup (segRemove m s) s' = if s' = s then none else segLookup m s' := by
  induction m with
  | nil => by_cases h4 : s' = s <;> simp [segRemove, segLookup, h4]
  | cons y ys ih =>
    rcases y with ⟨k, v⟩
    obtain ⟨hy, h2⟩ := List.pairwise_cons.mp h
    have hys := ih h2
    by_cases h3 : k = s
    · by_cases h4 : s' = s
      · have hnone : segLookup ys s' = none := by
          refine segLookup_eq_none_of_lt ?_
          intro x hx
          have := hy x hx
          omega
        rw [show segRemove ((k, v) :: ys) s = ys from by simp [segRemove, h3]]
        rw [hnone, if_pos h4]
      · have h5 : ¬ k = s' := by omega
        rw [show segRemove ((k, v) :: ys) s = ys from by simp [segRemove, h3]]
        rw [if_neg h4]
        simp only [segLookup]
        rw [if_neg h5]
    · rw [show segRemove ((k, v) :: ys) s = (k, v) :: segRemove ys s from by
        simp [segRemove, h3]]
      simp only [segLookup]
      by_cases h5 : k = s'
      · have h6 : ¬ s' = s := by omega
        rw [if_pos h5, if_neg h6, if_pos h5]
      · rw [if_neg h5, hys]
        by_cases h4 : s' = s
        · rw [if_pos h4, if_pos h4]
        · rw [if_neg h4, if_neg h4, if_neg h5]

theorem segSyncA_applyOp {A : AddressSpace} {op : ASOp}
    (hwf : WFmaps A) (hsync : SegSyncA A) (hv : ValidOp A op) :
    WFmaps (applyOp A op) ∧ SegSyncA (applyOp A op) := by
  obtain ⟨hobj, hsegm⟩ := hwf
  cases op with
  | bind mo os =>
    obtain ⟨-, haddr, hsegu⟩ := hv
    constructor
    · constructor
      · simp only [applyOp, bindObject]
        exact pairwise_objectsReplace hobj
      · simp only [applyOp, bindObject]
        split
        · exact pairwise_segReplace hsegm
        · exact hsegm
    · intro s mo''
      simp only [applyOp, bindObject]
      by_cases hm : mo.segment = 0
      · rw [if_neg (by simp [hm])]
        constructor
        · intro hl
          obtain ⟨⟨os'', hmem⟩, hs2, hs0⟩ := (hsync s mo'').mp hl
          refine ⟨⟨os'', (mem_objectsReplace_iff hobj).mpr (Or.inr ⟨hmem, ?_⟩)⟩, hs2, hs0⟩
          intro haddr2
          have hE2 : mo'' = mo := haddr (mo'', os'') hmem haddr2
          rw [hE2, hm] at hs2
          exact hs0 hs2.symm
        · rintro ⟨⟨os'', hmem⟩, hs2, hs0⟩
          rcases (mem_objectsReplace_iff hobj).mp hmem with heq | ⟨hmem', -⟩
          · have hE : mo'' = mo := congrArg Prod.fst heq
            rw [hE, hm] at hs2
            exact absurd hs2.symm hs0
          · exact (hsync s mo'').mpr ⟨⟨os'', hmem'⟩, hs2, hs0⟩
      · rw [if_pos hm]
        rw [segLookup_segReplace]
        by_cases hs' : s = mo.segment
        · rw [if_pos hs']
          constructor
          · intro hl
            have hE : mo'' = mo := (Option.some_injective _ hl).symm
            subst hE
            exact ⟨⟨{ os with copyOnWriteOwner := A.cowKey },
              (mem_objectsReplace_iff hobj).mpr (Or.inl rfl)⟩, hs'.symm, by rw [hs']; exact hm⟩
          · rintro ⟨⟨os'', hmem⟩, hs2, hs0⟩
            rcases (mem_objectsReplace_iff hobj).mp hmem with heq | ⟨hmem', hne⟩
            · have hE : mo'' = mo := congrArg Prod.fst heq
              rw [hE]
            · have hsame : mo''.segment = mo.segment := by rw [hs2, hs']
              have hE2 : mo'' = mo := hsegu hm (mo'', os'') hmem' hsame
              rw [hE2] at hne
              exact absurd rfl hne
        · rw [if_neg hs']
          constructor
          · intro hl
            obtain ⟨⟨os'', hmem⟩, hs2, hs0⟩ := (hsync s mo'').mp hl
            refine ⟨⟨os'', (mem_objectsReplace_iff hobj).mpr (Or.inr ⟨hmem, ?_⟩)⟩, hs2, hs0⟩
            intro haddr2
            have hE2 : mo'' = mo := haddr (mo'', os'') hmem haddr2
            rw [hE2] at hs2
            exact hs' hs2.symm
          · rintro ⟨⟨os'', hmem⟩, hs2, hs0⟩
            rcases (mem_objectsReplace_iff hobj).mp hmem with heq | ⟨hmem', -⟩
            · have hE : mo'' = mo := congrArg Prod.fst heq
              rw [hE] at hs2
              exact absurd hs2.symm hs'
            · exact (hsync s mo'').mpr ⟨⟨os'', hmem'⟩, hs2, hs0⟩
  | unbind mo =>
    obtain ⟨osb', hmem0⟩ := hv
    constructor
    · constructor
      · simp only [applyOp, unbindObject]
        exact pairwise_objectsRemove hobj
      · simp only [applyOp, unbindObject]
        split
        · exact pairwise_segRemove hsegm
        · exact hsegm
    · intro s mo''
      simp only [applyOp, unbindObject]
      by_cases hm : mo.segment = 0
      · rw [if_neg (by simp [hm])]
        constructor
        · intro hl
          obtain ⟨⟨os'', hmem⟩, hs2, hs0⟩ := (hsync s mo'').mp hl
          refine ⟨⟨os'', (mem_objectsRemove_iff hobj).mpr ⟨hmem, ?_⟩⟩, hs2, hs0⟩
          intro haddr2
          have hE := entry_unique_of_pairwise hobj hmem hmem0 haddr2
          have hE2 : mo'' = mo := congrArg Prod.fst hE
          rw [hE2, hm] at hs2
          exact hs0 hs2.symm
        · rintro ⟨⟨os'', hmem⟩, hs2, hs0⟩
          obtain ⟨hmem', -⟩ := (mem_objectsRemove_iff hobj).mp hmem
          exact (hsync s mo'').mpr ⟨⟨os'', hmem'⟩, hs2, hs0⟩
      · rw [if_pos hm]
        rw [segLookup_segRemove hsegm]
        by_cases hs' : s = mo.segment
        · rw [if_pos hs']
          constructor
          · intro hl
            simp at hl
          · rintro ⟨⟨os'', hmem⟩, hs2, hs0⟩
            obtain ⟨hmem', hne⟩ := (mem_objectsRemove_iff hobj).mp hmem
            have h1 := (hsync s mo'').mpr ⟨⟨os'', hmem'⟩, hs2, hs0⟩
            have h2 := (hsync s mo).mpr ⟨⟨osb', hmem0⟩, hs'.symm, by rw [hs']; exact hm⟩
            rw [h1] at h2
            have hE : mo'' = mo := Option.some_injective _ h2
            rw [hE] at hne
            exact absurd rfl hne
        · rw [if_neg hs']
          constructor
          · intro hl
            obtain ⟨⟨os'', hmem⟩, hs2, hs0⟩ := (hsync s mo'').mp hl
            refine ⟨⟨os'', (mem_objectsRemove_iff hobj).mpr ⟨hmem, ?_⟩⟩, hs2, hs0⟩
            intro haddr2
            have hE := entry_unique_of_pairwise hobj hmem hmem0 haddr2
            have hE2 : mo'' = mo := congrArg Prod.fst hE
            rw [hE2] at hs2
            exact hs' hs2.symm
          · rintro ⟨⟨os'', hmem⟩, hs2, hs0⟩
            obtain ⟨hmem', -⟩ := (mem_objectsRemove_iff hobj).mp hmem
            exact (hsync s mo'').mpr ⟨⟨os'', hmem'⟩, hs2, hs0⟩
  | getWr mo os =>
    obtain ⟨hmem0, -⟩ := hv
    by_cases hcow : A.cowKey = os.copyOnWriteOwner
    · constructor
      · simp only [applyOp, getWriteable, if_pos hcow]
        exact ⟨hobj, hsegm⟩
      · simp only [applyOp, getWriteable, if_pos hcow]
        exact hsync
    · constructor
      · constructor
        · simp only [applyOp, getWriteable, if_neg hcow]
          exact pairwise_objectsReplace hobj
        · simp only [applyOp, getWriteable, if_neg hcow]
          exact hsegm
      · intro s mo''
        simp only [applyOp, getWriteable, if_neg hcow]
        constructor
        · intro hl
          obtain ⟨⟨os'', hmem⟩, hs2, hs0⟩ := (hsync s mo'').mp hl
          by_cases haddr2 : mo''.address = mo.address
          · have hE := entry_unique_of_pairwise hobj hmem hmem0 haddr2
            have hE2 : mo'' = mo := congrArg Prod.fst hE
            refine ⟨⟨{ os with copyOnWriteOwner := A.cowKey, id := A.idCounter }, ?_⟩, hs2, hs0⟩
            rw [hE2]
            exact (mem_objectsReplace_iff hobj).mpr (Or.inl rfl)
          · exact ⟨⟨os'', (mem_objectsReplace_iff hobj).mpr (Or.inr ⟨hmem, haddr2⟩)⟩, hs2, hs0⟩
        · rintro ⟨⟨os'', hmem⟩, hs2, hs0⟩
          rcases (mem_objectsReplace_iff hobj).mp hmem with heq | ⟨hmem', -⟩
          · have hE : mo'' = mo := congrArg Prod.fst heq
            refine (hsync s mo'').mpr ⟨⟨os, ?_⟩, hs2, hs0⟩
            rw [hE]
            exact hmem0
          · exact (hsync s mo'').mpr ⟨⟨os'', hmem'⟩, hs2, hs0⟩

/-- The synchronised invariant on the concrete space `spaceU`. -/
theorem segSyncA_spaceU : SegSyncA spaceU := by
  intro s mo
  constructor
  · intro hl
    simp only [spaceU, segLookup] at hl
    split at hl
    next h7 =>
      cases hl
      refine ⟨⟨osb, by simp [spaceU]⟩, ?_, ?_⟩
      · rw [← h7]
        rfl
      · omega
    next h7 =>
      simp [segLookup] at hl
  · rintro ⟨⟨os', hm⟩, hs2, hs0⟩
    simp only [spaceU, List.mem_singleton] at hm
    have hmo : mo = moS := congrArg Prod.fst hm
    subst hmo
    simp only [spaceU, segLookup]
    rw [if_pos (show (7 : Nat) = s from hs2)]

/-- C6 counterexample: (i) even under the claim's own bindObject precondition,
binding a single segment-0 object into an empty space already violates the
invariant as literally stated (its right-to-left direction at `s = 0`);
(ii) `getWriteable` on an object not bound in the space inserts it without a
segment-map entry, violating even the non-zero-restricted invariant;
(iii) `unbindObject` on an unbound object sharing a bound object's segment
deletes that object's segment entry, likewise violating it. -/
theorem C6_counterexample :
    (SegSync spaceC1 ∧ ValidOp spaceC1 (ASOp.bind moF os0) ∧
      ¬ SegSync (bindObject spaceC1 moF os0)) ∧
    (SegSyncA spaceC1 ∧
      ¬ SegSyncA (applyOp spaceC1 (ASOp.getWr moS ⟨0, false, 9⟩))) ∧
    (SegSyncA spaceU ∧ ¬ SegSyncA (unbindObject spaceU moS2)) := by
  refine ⟨⟨?_, ?_, ?_⟩, ⟨?_, ?_⟩, ⟨segSyncA_spaceU, ?_⟩⟩
  · intro s mo
    simp [spaceC1, segLookup]
  · exact ⟨rfl, fun e he => absurd he (by simp [spaceC1]), fun h => absurd rfl h⟩
  · intro h
    exact Option.noConfusion
      ((h 0 moF).mpr ⟨⟨⟨0, false, 1⟩, by decide⟩, rfl⟩)
  · intro s mo
    simp [spaceC1, segLookup]
  · intro h
    exact Option.noConfusion
      ((h 7 moS).mpr ⟨⟨⟨0, false, 1⟩, by decide⟩, rfl, by decide⟩)
  · intro h
    exact Option.noConfusion
      ((h 7 moS).mpr ⟨⟨osb, by decide⟩, rfl, by decide⟩)

/-- C6 amended: the segment-map synchronisation invariant restricted to
non-zero keys — `segmentMap[s] == mo ↔ (mo bound ∧ mo.segment == s ∧ s ≠ 0)` —
is preserved by every sequence of the public operations applied under their
caller-side preconditions (bindObject: fresh state, no distinct bound object
with the same address, no distinct bound object with the same non-zero
segment; unbindObject: the object is bound; getWriteable: the pair is bound),
starting from a structurally well-formed space satisfying it. -/
theorem C6_amended_segmentMap_sync (A : AddressSpace) (ops : List ASOp)
    (hwf : WFmaps A) (hsync : SegSyncA A) (hval : ValidOps A ops) :
    SegSyncA (applyOps A ops) := by
  induction ops generalizing A with
  | nil => exact hsync
  | cons op rest ih =>
    obtain ⟨h1, h2⟩ := segSyncA_applyOp ⟨hwf.1, hwf.2⟩ hsync hval.1
    exact ih (applyOp A op) h1 h2 hval.2

/-- Witness for the amended C6: unbind the bound segmented object, then bind
it afresh. -/
theorem C6_witness :
    WFmaps spaceU ∧ SegSyncA spaceU ∧
      ValidOps spaceU [ASOp.unbind moS, ASOp.bind moS os0] ∧
      SegSyncA (applyOps spaceU [ASOp.unbind moS, ASOp.bind moS os0]) := by
  have hwf : WFmaps spaceU := ⟨by simp [spaceU], by simp [spaceU]⟩
  have hval : ValidOps spaceU [ASOp.unbind moS, ASOp.bind moS os0] := by
    refine ⟨⟨osb, by decide⟩, ⟨rfl, ?_, ?_⟩, trivial⟩
    · intro e he
      simp [applyOp, unbindObject, spaceU, objectsRemove, segRemove, moS] at he
    · intro hseg e he
      simp [applyOp, unbindObject, spaceU, objectsRemove, segRemove, moS] at he
  exact ⟨hwf, segSyncA_spaceU, hval,
    C6_amended_segmentMap_sync spaceU _ hwf segSyncA_spaceU hval⟩

theorem evalExpr_lt (e : Expr) (α : Nat → Nat) : evalExpr e α < w64 := by
  have hw : 0 < w64 := by decide
  have h1 : 1 < w64 := by decide
  induction e with
  | const v => exact Nat.mod_lt _ hw
  | sym i => exact Nat.mod_lt _ hw
  | uge a b iha ihb =>
    simp only [evalExpr]
    split <;> omega
  | ult a b iha ihb =>
    simp only [evalExpr]
    split <;> omega
  | eq a b iha ihb =>
    simp only [evalExpr]
    split <;> omega
  | isZero e ih =>
    simp only [evalExpr]
    split <;> omega
  | boundsCheck addr size off ihs iho =>
    simp only [evalExpr]
    split
    · split <;> omega
    · split <;> omega

theorem sub64_self (a : Nat) : sub64 a a = 0 := by
  have h : a % w64 < w64 := Nat.mod_lt _ (by decide)
  unfold sub64
  have h2 : a % w64 + (w64 - a % w64) = w64 := by omega
  rw [h2]
  exact Nat.mod_self _

theorem sub64_lt_iff {addr c o : Nat} (h1 : addr < w64) (h2 : c < w64)
    (h3 : addr + c ≤ w64) (h4 : o < w64) :
    (sub64 o addr < c ↔ addr ≤ o ∧ o < addr + c) := by
  unfold sub64
  rw [Nat.mod_eq_of_lt h4, Nat.mod_eq_of_lt h1]
  by_cases hcase : addr ≤ o
  · have he : o + (w64 - addr) = w64 + (o - addr) := by omega
    rw [he, Nat.add_mod_left, Nat.mod_eq_of_lt (by omega)]
    omega
  · rw [Nat.mod_eq_of_lt (by omega)]
    omega

theorem asConst_some {e : Expr} {a : Nat} (h : e.asConst = some a) :
    ∃ v, e = Expr.const v ∧ a = v % w64 := by
  cases e
  case const v =>
    have h2 : v % w64 = a := by simpa [Expr.asConst] using h
    exact ⟨v, rfl, h2.symm⟩
  all_goals simp [Expr.asConst] at h

theorem lookupPrev_mem {l : List MemEntry} {a : Nat} {e : MemEntry}
    (h : lookupPrev l a = some e) : e ∈ l := by
  induction l with
  | nil => simp [lookupPrev] at h
  | cons x xs ih =>
    simp only [lookupPrev] at h
    split at h
    · rcases hr : lookupPrev xs a with _ | r
      · rw [hr] at h
        cases h
        exact List.mem_cons_self _ _
      · rw [hr] at h
        cases h
        exact List.mem_cons.mpr (Or.inr (ih hr))
    · cases h

theorem mem_of_takeWhile {α : Type} {q : α → Bool} :
    ∀ {l : List α} {e : α}, e ∈ l.takeWhile q → e ∈ l := by
  intro l
  induction l with
  | nil => intro e h; simp at h
  | cons x xs ih =>
    intro e h
    rw [List.takeWhile_cons] at h
    split at h
    · rcases List.mem_cons.mp h with rfl | h
      · exact List.mem_cons_self _ _
      · exact List.mem_cons.mpr (Or.inr (ih h))
    · simp at h

theorem mem_of_dropWhile {α : Type} {q : α → Bool} :
    ∀ {l : List α} {e : α}, e ∈ l.dropWhile q → e ∈ l := by
  intro l
  induction l with
  | nil => intro e h; simp at h
  | cons x xs ih =>
    intro e h
    rw [List.dropWhile_cons] at h
    split at h
    · exact List.mem_cons.mpr (Or.inr (ih h))
    · exact h

theorem sound_evalSolver (α₀ : Nat → Nat) :
    Sound (fun α => α = α₀) (evalSolver α₀) := by
  refine ⟨?_, ?_, ?_⟩
  · intro e b hb
    simp only [evalSolver] at hb
    cases hb
    constructor
    · rintro ⟨α, rfl, hα⟩
      exact decide_eq_true hα
    · intro hd
      exact ⟨α₀, rfl, of_decide_eq_true hd⟩
  · intro e b hb
    simp only [evalSolver] at hb
    cases hb
    constructor
    · intro hall
      exact decide_eq_true (hall α₀ rfl)
    · intro hd α hα
      subst hα
      exact of_decide_eq_true hd
  · intro e v hv
    simp only [evalSolver] at hv
    cases hv
    exact ⟨α₀, rfl, rfl⟩

theorem resolveConstantAddress_flat {A : AddressSpace} {p : KValue} {a : Nat}
    (hseg : p.segment.asConst = some 0) (hval : p.value.asConst = some a) :
    resolveConstantAddress A p =
      (match lookupPrev A.objects a with
       | some res =>
         (match res.1.size.asConst with
          | some sz =>
            if (sz % w32 = 0 ∧ a = res.1.address) ∨ sub64 a res.1.address < sz % w32 then
              some res
            else none
          | none => none)
       | none => none) := by
  simp only [resolveConstantAddress, hseg, hval]
  rw [if_neg (by simp)]

theorem resolveConstantAddress_seg {A : AddressSpace} {p : KValue} {s : Nat}
    (hseg : p.segment.asConst = some s) (hs : s ≠ 0) :
    resolveConstantAddress A p =
      (match segLookup A.segmentMap s with
       | some mo => objectsLookup A.objects mo
       | none => none) := by
  simp only [resolveConstantAddress, hseg]
  rw [if_pos hs]

theorem resolveOneBackward_commit {S : Solver} {p : KValue} :
    ∀ {l : List MemEntry} {e : MemEntry}, resolveOneBackward S p l = .commit e →
      S.mayBeTrue (boundsFor e.1 p) = some true ∧ e ∈ l := by
  intro l
  induction l with
  | nil => intro e h; simp [resolveOneBackward] at h
  | cons x xs ih =>
    intro e h
    simp only [resolveOneBackward] at h
    rcases hb : S.mayBeTrue (boundsFor x.1 p) with _ | b
    · rw [hb] at h; cases h
    · rw [hb] at h
      cases b with
      | true =>
        cases h
        exact ⟨hb, List.mem_cons_self _ _⟩
      | false =>
        rcases hm : S.mustBeTrue (Expr.uge p.value (baseFor x.1)) with _ | c
        · rw [hm] at h; cases h
        · rw [hm] at h
          cases c with
          | true => cases h
          | false =>
            obtain ⟨h1, h2⟩ := ih h
            exact ⟨h1, List.mem_cons.mpr (Or.inr h2)⟩

theorem resolveOneForward_commit {S : Solver} {p : KValue} :
    ∀ {l : List MemEntry} {e : MemEntry}, resolveOneForward S p l = .commit e →
      S.mayBeTrue (boundsFor e.1 p) = some true ∧ e ∈ l := by
  intro l
  induction l with
  | nil => intro e h; simp [resolveOneForward] at h
  | cons x xs ih =>
    intro e h
    simp only [resolveOneForward] at h
    rcases hm : S.mustBeTrue (Expr.ult p.value (baseFor x.1)) with _ | c
    · rw [hm] at h; cases h
    · rw [hm] at h
      cases c with
      | true => cases h
      | false =>
        rcases hb : S.mayBeTrue (boundsFor x.1 p) with _ | b
        · rw [hb] at h; cases h
        · rw [hb] at h
          cases b with
          | true =>
            cases h
            exact ⟨hb, List.mem_cons_self _ _⟩
          | false =>
            obtain ⟨h1, h2⟩ := ih h
            exact ⟨h1, List.mem_cons.mpr (Or.inr h2)⟩

/-- C5 counterexample: a fully constant segmented pointer commits through the
segment map with no bounds check; under a sound solver the committed object's
bounds check is unsatisfiable (`mayBeTrue` answers `false`). -/
theorem C5_counterexample :
    Sound (fun α => α = zeroAsn) (evalSolver zeroAsn) ∧
    (resolveOne spaceC5 (evalSolver zeroAsn) ptrC5).success = some true ∧
    (resolveOne spaceC5 (evalSolver zeroAsn) ptrC5).result = some (moS5, os0) ∧
    (evalSolver zeroAsn).mayBeTrue (boundsFor moS5 ptrC5) = some false := by
  exact ⟨sound_evalSolver zeroAsn, by decide, by decide, by decide⟩

/-- C5 amended: whenever `resolveOne` commits (assigns `success = true` and a
result pair) on a path whose segment is zero — the fully constant flat path,
the fast path, or either directional walk — the committed object's bounds
check is satisfiable under the path constraints (for a sound solver, bound
`uint64` addresses, and satisfiable constraints).  The segment-committing
paths are excluded: they perform no bounds check (counterexample). -/
theorem C5_amended_resolveOne_bounds (A : AddressSpace) (S : Solver) (p : KValue)
    (P : (Nat → Nat) → Prop) (mo : MemoryObject) (os : ObjectState)
    (hS : Sound P S) (hsat : ∃ α, P α)
    (haddr : ∀ e ∈ A.objects, e.1.address < w64)
    (hflat : p.isConstant = true → p.segment.asConst = some 0)
    (hsucc : (resolveOne A S p).success = some true)
    (hres : (resolveOne A S p).result = some (mo, os)) :
    ∃ α, P α ∧ evalExpr (boundsFor mo p) α ≠ 0 := by
  cases hc : p.isConstant with
  | true =>
    have hseg := hflat hc
    have hr2 : resolveConstantAddress A p = some (mo, os) := by
      rcases hr : resolveConstantAddress A p with _ | e
      · simp [resolveOne, hc, hr] at hsucc
      · simp [resolveOne, hc, hr] at hres
        rw [hres]
    have hv0 : p.value.asConst.isSome := by
      simp [KValue.isConstant] at hc
      exact hc.2
    obtain ⟨a, hval⟩ := Option.isSome_iff_exists.mp hv0
    rw [resolveConstantAddress_flat hseg hval] at hr2
    rcases hlp : lookupPrev A.objects a with _ | res
    · simp only [hlp] at hr2
      cases hr2
    · simp only [hlp] at hr2
      rcases hsz : res.1.size.asConst with _ | sz
      · simp only [hsz] at hr2
        cases hr2
      · simp only [hsz] at hr2
        split at hr2
        next hcond =>
          have hres2 : res = (mo, os) := Option.some_injective _ hr2
          subst hres2
          obtain ⟨α, hα⟩ := hsat
          refine ⟨α, hα, ?_⟩
          obtain ⟨v, hpv, hav⟩ := asConst_some hval
          obtain ⟨u, hszu, hszv⟩ := asConst_some hsz
          have hszu2 : mo.size = Expr.const u := hszu
          have hmem : ((mo, os) : MemEntry) ∈ A.objects := lookupPrev_mem hlp
          have hA : mo.address < w64 := haddr (mo, os) hmem
          simp only [boundsFor, evalExpr, hpv, hszu2]
          rw [← hszv, ← hav, Nat.mod_eq_of_lt hA]
          by_cases hz : sz = 0
          · rw [if_pos hz]
            rcases hcond with ⟨h32, haeq⟩ | hlt
            · have haeq2 : a = mo.address := haeq
              rw [if_pos haeq2]
              omega
            · exfalso
              rw [hz] at hlt
              simp at hlt
          · rw [if_neg hz]
            have hlt2 : sub64 a mo.address < sz := by
              rcases hcond with ⟨h32, haeq⟩ | hlt
              · have haeq2 : a = mo.address := haeq
                rw [haeq2, sub64_self]
                omega
              · have hlt3 : sub64 a mo.address < sz % w32 := hlt
                have := Nat.mod_le sz w32
                omega
            rw [if_pos hlt2]
            omega
        next hcond =>
          cases hr2
  | false =>
    rcases hcs : concretizedSegment S p with _ | s
    · simp [resolveOne, hc, hcs] at hsucc
    · by_cases hs : s = 0
      · subst hs
        rcases hgv : S.getValue p.value with _ | v
        · simp [resolveOne, hc, hcs, hgv] at hsucc
        · obtain ⟨α, hα, hev⟩ := hS.getVal p.value v hgv
          have hv64 : v < w64 := by
            rw [← hev]
            exact evalExpr_lt _ _
          have hvmod : v % w64 = v := Nat.mod_eq_of_lt hv64
          rcases hlp : lookupPrev A.objects (v % w64) with _ | res
          · rcases hbw : resolveOneBackward S p
                ((A.objects.takeWhile (fun e => e.1.address ≤ v % w64)).reverse) with
              _ | e | _
            · simp [resolveOne, hc, hcs, hgv, hlp, hbw] at hsucc
            · have he : e = (mo, os) := by
                simp [resolveOne, hc, hcs, hgv, hlp, hbw] at hres
                exact hres
              subst he
              obtain ⟨hmay, -⟩ := resolveOneBackward_commit hbw
              exact (hS.may _ _ hmay).mpr rfl
            · rcases hfw : resolveOneForward S p
                  (A.objects.dropWhile (fun e => e.1.address ≤ v % w64)) with _ | e | _
              · simp [resolveOne, hc, hcs, hgv, hlp, hbw, hfw] at hsucc
              · have he : e = (mo, os) := by
                  simp [resolveOne, hc, hcs, hgv, hlp, hbw, hfw] at hres
                  exact hres
                subst he
                obtain ⟨hmay, -⟩ := resolveOneForward_commit hfw
                exact (hS.may _ _ hmay).mpr rfl
              · simp [resolveOne, hc, hcs, hgv, hlp, hbw, hfw] at hsucc
          · rcases hsz : res.1.size.asConst with _ | sz
            · rcases hbw : resolveOneBackward S p
                  ((A.objects.takeWhile (fun e => e.1.address ≤ v % w64)).reverse) with
                _ | e | _
              · simp [resolveOne, hc, hcs, hgv, hlp, hsz, hbw] at hsucc
              · have he : e = (mo, os) := by
                  simp [resolveOne, hc, hcs, hgv, hlp, hsz, hbw] at hres
                  exact hres
                subst he
                obtain ⟨hmay, -⟩ := resolveOneBackward_commit hbw
                exact (hS.may _ _ hmay).mpr rfl
              · rcases hfw : resolveOneForward S p
                    (A.objects.dropWhile (fun e => e.1.address ≤ v % w64)) with _ | e | _
                · simp [resolveOne, hc, hcs, hgv, hlp, hsz, hbw, hfw] at hsucc
                · have he : e = (mo, os) := by
                    simp [resolveOne, hc, hcs, hgv, hlp, hsz, hbw, hfw] at hres
                    exact hres
                  subst he
                  obtain ⟨hmay, -⟩ := resolveOneForward_commit hfw
                  exact (hS.may _ _ hmay).mpr rfl
                · simp [resolveOne, hc, hcs, hgv, hlp, hsz, hbw, hfw] at hsucc
            · by_cases hlt : sub64 (v % w64) res.1.address < sz
              · have hres2 : res = (mo, os) := by
                  simp [resolveOne, hc, hcs, hgv, hlp, hsz, hlt] at hres
                  exact hres
                subst hres2
                refine ⟨α, hα, ?_⟩
                obtain ⟨u, hszu, hszv⟩ := asConst_some hsz
                have hszu2 : mo.size = Expr.const u := hszu
                have hlt4 : sub64 (v % w64) mo.address < sz := hlt
                simp only [boundsFor, evalExpr, hszu2]
                rw [← hszv]
                have hsznz : ¬ sz = 0 := by omega
                rw [if_neg hsznz, hev]
                rw [hvmod] at hlt4
                rw [if_pos hlt4]
                omega
              · rcases hbw : resolveOneBackward S p
                    ((A.objects.takeWhile (fun e => e.1.address ≤ v % w64)).reverse) with
                  _ | e | _
                · simp [resolveOne, hc, hcs, hgv, hlp, hsz, hlt, hbw] at hsucc
                · have he : e = (mo, os) := by
                    simp [resolveOne, hc, hcs, hgv, hlp, hsz, hlt, hbw] at hres
                    exact hres
                  subst he
                  obtain ⟨hmay, -⟩ := resolveOneBackward_commit hbw
                  exact (hS.may _ _ hmay).mpr rfl
                · rcases hfw : resolveOneForward S p
                      (A.objects.dropWhile (fun e => e.1.address ≤ v % w64)) with _ | e | _
                  · simp [resolveOne, hc, hcs, hgv, hlp, hsz, hlt, hbw, hfw] at hsucc
                  · have he : e = (mo, os) := by
                      simp [resolveOne, hc, hcs, hgv, hlp, hsz, hlt, hbw, hfw] at hres
                      exact hres
                    subst he
                    obtain ⟨hmay, -⟩ := resolveOneForward_commit hfw
                    exact (hS.may _ _ hmay).mpr rfl
                  · simp [resolveOne, hc, hcs, hgv, hlp, hsz, hlt, hbw, hfw] at hsucc
      · rcases hr : resolveConstantAddress A ⟨Expr.const s, p.value⟩ with _ | e <;>
          simp [resolveOne, hc, hcs, hs, hr] at hsucc

/-- Witness for the amended C5 at a committing constant flat pointer. -/
theorem C5_witness :
    (∃ α : Nat → Nat, α = zeroAsn) ∧
    (resolveOne spaceC2 (evalSolver zeroAsn) ptrC5w).success = some true ∧
    (resolveOne spaceC2 (evalSolver zeroAsn) ptrC5w).result = some (moA2, os0) ∧
    (∃ α, α = zeroAsn ∧ evalExpr (boundsFor moA2 ptrC5w) α ≠ 0) := by
  refine ⟨⟨zeroAsn, rfl⟩, by decide, by decide, ?_⟩
  exact C5_amended_resolveOne_bounds spaceC2 (evalSolver zeroAsn) ptrC5w
    (fun α => α = zeroAsn) moA2 os0 (sound_evalSolver zeroAsn) ⟨zeroAsn, rfl⟩
    (by decide) (fun _ => by decide) (by decide) (by decide)

/-- Witness for the amended C1 at a concrete input on the failure direction:
the segment concretisation fails, so `resolveOne` returns `false`. -/
theorem C1_witness :
    ptrC1.isConstant = false ∧ concretizedSegment solverFail ptrC1 = none ∧
      (resolveOne spaceC1 solverFail ptrC1).ret = false := by
  refine ⟨rfl, rfl, ?_⟩
  exact (C1_amended_resolveOne_return spaceC1 solverFail ptrC1).1.mpr ⟨rfl, Or.inl rfl⟩

theorem must_true_eval {P : (Nat → Nat) → Prop} {S : Solver} (hS : Sound P S)
    {e : Expr} (h : S.mustBeTrue e = some true) :
    ∀ α, P α → evalExpr e α ≠ 0 :=
  (hS.must e true h).mpr rfl

theorem may_false_eval {P : (Nat → Nat) → Prop} {S : Solver} (hS : Sound P S)
    {e : Expr} (h : S.mayBeTrue e = some false) :
    ∀ α, P α → evalExpr e α = 0 := by
  intro α hα
  by_contra hne
  have h2 := (hS.may e false h).mp ⟨α, hα, hne⟩
  cases h2

theorem uge_eval_ge {p : KValue} {mo : MemoryObject} {α : Nat → Nat}
    (hA : mo.address < w64)
    (h : evalExpr (Expr.uge p.value (baseFor mo)) α ≠ 0) :
    mo.address ≤ evalExpr p.value α := by
  simp only [evalExpr, baseFor] at h
  simp only [Nat.mod_eq_of_lt hA] at h
  by_contra hlt
  rw [if_neg (by omega)] at h
  exact h rfl

theorem ult_eval_lt {p : KValue} {mo : MemoryObject} {α : Nat → Nat}
    (hA : mo.address < w64)
    (h : evalExpr (Expr.ult p.value (baseFor mo)) α ≠ 0) :
    evalExpr p.value α < mo.address := by
  simp only [evalExpr, baseFor] at h
  simp only [Nat.mod_eq_of_lt hA] at h
  by_contra hge
  rw [if_neg (by omega)] at h
  exact h rfl

theorem bounds_eval_range {e : MemEntry} {p : KValue} {α : Nat → Nat}
    (hG : Geom e) (h : evalExpr (boundsFor e.1 p) α ≠ 0) :
    e.1.address ≤ evalExpr p.value α ∧
      (evalExpr p.value α < e.1.address + sizeC e ∨ evalExpr p.value α = e.1.address) := by
  obtain ⟨hA, c, hsz, hc, hfit⟩ := hG
  have hszC : sizeC e = c := by
    simp [sizeC, hsz, Expr.asConst, Nat.mod_eq_of_lt hc]
  simp only [boundsFor, evalExpr, hsz] at h
  rw [Nat.mod_eq_of_lt hc, Nat.mod_eq_of_lt hA] at h
  have ho64 : evalExpr p.value α < w64 := evalExpr_lt _ _
  by_cases hz : c = 0
  · rw [if_pos hz] at h
    split at h
    next heq => exact ⟨by omega, Or.inr heq⟩
    next heq => exact absurd rfl h
  · rw [if_neg hz] at h
    have hlt : sub64 (evalExpr p.value α) e.1.address < c := by
      by_contra hn
      rw [if_neg hn] at h
      exact h rfl
    have h2 := (sub64_lt_iff hA hc hfit ho64).mp hlt
    rw [hszC]
    exact ⟨h2.1, Or.inl (by omega)⟩

theorem bounds_eval_zero_of_ge {e : MemEntry} {p : KValue} {α : Nat → Nat}
    (hG : Geom e) {bound : Nat} (hsep1 : e.1.address + sizeC e ≤ bound)
    (hsep2 : e.1.address < bound) (hge : bound ≤ evalExpr p.value α) :
    evalExpr (boundsFor e.1 p) α = 0 := by
  by_contra h
  obtain ⟨h1, h2⟩ := bounds_eval_range hG h
  rcases h2 with h2 | h2 <;> omega

theorem bounds_eval_zero_of_lt {e : MemEntry} {p : KValue} {α : Nat → Nat}
    (hG : Geom e) {bound : Nat} (hbound : bound ≤ e.1.address)
    (hlt : evalExpr p.value α < bound) :
    evalExpr (boundsFor e.1 p) α = 0 := by
  by_contra h
  obtain ⟨h1, h2⟩ := bounds_eval_range hG h
  omega

theorem bounds_excl_pair {e1 e2 : MemEntry} {p : KValue} {α : Nat → Nat}
    (hG1 : Geom e1) (hG2 : Geom e2) (hsep : Sep e1 e2 ∨ Sep e2 e1)
    (h1 : evalExpr (boundsFor e1.1 p) α ≠ 0) :
    evalExpr (boundsFor e2.1 p) α = 0 := by
  obtain ⟨ha, hb⟩ := bounds_eval_range hG1 h1
  rcases hsep with ⟨hlt, hfit⟩ | ⟨hlt, hfit⟩
  · refine bounds_eval_zero_of_lt hG2 (le_refl e2.1.address) ?_
    rcases hb with hb | hb <;> omega
  · exact bounds_eval_zero_of_ge hG2 hfit hlt (by omega)

theorem cpio_code_cases {S : Solver} {p : KValue} {op : MemEntry}
    {rl rl' : List MemEntry} {m c : Nat}
    (h : checkPointerInObject S p op rl m = (c, rl')) : c = 0 ∨ c = 1 ∨ c = 2 := by
  simp only [checkPointerInObject] at h
  rcases hb : S.mayBeTrue (boundsFor op.1 p) with _ | b
  · rw [hb] at h
    cases h
    omega
  · rw [hb] at h
    cases b with
    | false =>
      simp only [Bool.false_eq_true, if_false] at h
      cases h
      omega
    | true =>
      simp only [if_true] at h
      split at h
      · rcases hm : S.mustBeTrue (boundsFor op.1 p) with _ | cm
        · rw [hm] at h; cases h; omega
        · rw [hm] at h
          cases cm with
          | true => cases h; omega
          | false => cases h; omega
      · split at h
        · cases h; omega
        · cases h; omega

theorem cpio_zero {S : Solver} {p : KValue} {op : MemEntry}
    {rl rl' : List MemEntry} {m : Nat}
    (h : checkPointerInObject S p op rl m = (0, rl')) :
    rl' = rl ++ [op] ∧ rl'.length = 1 ∧
      S.mustBeTrue (boundsFor op.1 p) = some true ∧
      S.mayBeTrue (boundsFor op.1 p) = some true := by
  simp only [checkPointerInObject] at h
  rcases hb : S.mayBeTrue (boundsFor op.1 p) with _ | b
  · rw [hb] at h; cases h
  · rw [hb] at h
    cases b with
    | false =>
      simp only [Bool.false_eq_true, if_false] at h
      cases h
    | true =>
      simp only [if_true] at h
      split at h
      next hlen =>
        rcases hm : S.mustBeTrue (boundsFor op.1 p) with _ | cm
        · rw [hm] at h; cases h
        · rw [hm] at h
          cases cm with
          | true =>
            cases h
            exact ⟨rfl, hlen, rfl, rfl⟩
          | false => cases h
      next hlen =>
        split at h
        · cases h
        · cases h

theorem cpio_two {S : Solver} {p : KValue} {op : MemEntry}
    {rl rl' : List MemEntry} {m : Nat}
    (h : checkPointerInObject S p op rl m = (2, rl')) :
    (S.mayBeTrue (boundsFor op.1 p) = some false ∧ rl' = rl) ∨
    (S.mayBeTrue (boundsFor op.1 p) = some true ∧ rl' = rl ++ [op]) := by
  simp only [checkPointerInObject] at h
  rcases hb : S.mayBeTrue (boundsFor op.1 p) with _ | b
  · rw [hb] at h; cases h
  · rw [hb] at h
    cases b with
    | false =>
      simp only [Bool.false_eq_true, if_false] at h
      cases h
      exact Or.inl ⟨rfl, rfl⟩
    | true =>
      simp only [if_true] at h
      split at h
      · rcases hm : S.mustBeTrue (boundsFor op.1 p) with _ | cm
        · rw [hm] at h; cases h
        · rw [hm] at h
          cases cm with
          | true => cases h
          | false =>
            cases h
            exact Or.inr ⟨rfl, rfl⟩
      · split at h
        · cases h
        · cases h
          exact Or.inr ⟨rfl, rfl⟩

theorem cpio_one_rl {S : Solver} {p : KValue} {op : MemEntry}
    {rl rl' : List MemEntry} {m : Nat}
    (h : checkPointerInObject S p op rl m = (1, rl')) :
    rl' = rl ∨ (rl' = rl ++ [op] ∧ S.mayBeTrue (boundsFor op.1 p) = some true) := by
  simp only [checkPointerInObject] at h
  rcases hb : S.mayBeTrue (boundsFor op.1 p) with _ | b
  · rw [hb] at h
    cases h
    exact Or.inl rfl
  · rw [hb] at h
    cases b with
    | false =>
      simp only [Bool.false_eq_true, if_false] at h
      cases h
    | true =>
      simp only [if_true] at h
      split at h
      · rcases hm : S.mustBeTrue (boundsFor op.1 p) with _ | cm
        · rw [hm] at h
          cases h
          exact Or.inr ⟨rfl, rfl⟩
        · rw [hm] at h
          cases cm with
          | true => cases h
          | false => cases h
      · split at h
        · cases h
          exact Or.inr ⟨rfl, rfl⟩
        · cases h

theorem flatBackward_append {S : Solver} {p : KValue} {m : Nat} {tmo : Nat → Bool} :
    ∀ (bs rl : List MemEntry) (t : Nat) (out : FlatOut) (rl' : List MemEntry) (t' : Nat),
      flatBackward S p m tmo bs rl t = (out, rl', t') →
      ∃ d, rl' = rl ++ d ∧ ∀ e ∈ d, S.mayBeTrue (boundsFor e.1 p) = some true ∧ e ∈ bs := by
  intro bs
  induction bs with
  | nil =>
    intro rl t out rl' t' h
    simp only [flatBackward] at h
    cases h
    exact ⟨[], by simp⟩
  | cons x rest ih =>
    intro rl t out rl' t' h
    simp only [flatBackward] at h
    split at h
    · cases h
      exact ⟨[], by simp⟩
    · rcases hcp : checkPointerInObject S p x rl m with ⟨c, rlc⟩
      rw [hcp] at h
      rcases cpio_code_cases hcp with h0 | h1 | h2
      · subst h0
        rw [if_pos rfl] at h
        cases h
        obtain ⟨hrl, -, -, hmay⟩ := cpio_zero hcp
        refine ⟨[x], by simpa using hrl, ?_⟩
        intro e he
        rcases List.mem_singleton.mp he with rfl
        exact ⟨hmay, List.mem_cons_self _ _⟩
      · subst h1
        rw [if_neg (by omega), if_pos rfl] at h
        cases h
        rcases cpio_one_rl hcp with hrl | ⟨hrl, hmay⟩
        · exact ⟨[], by simp [hrl]⟩
        · refine ⟨[x], by simpa using hrl, ?_⟩
          intro e he
          rcases List.mem_singleton.mp he with rfl
          exact ⟨hmay, List.mem_cons_self _ _⟩
      · subst h2
        rw [if_neg (by omega), if_neg (by omega)] at h
        rcases hmu : S.mustBeTrue (Expr.uge p.value (baseFor x.1)) with _ | cm
        · rw [hmu] at h
          cases h
          rcases cpio_two hcp with ⟨-, hrl⟩ | ⟨hmay, hrl⟩
          · exact ⟨[], by simp [hrl]⟩
          · refine ⟨[x], by simpa using hrl, ?_⟩
            intro e he
            rcases List.mem_singleton.mp he with rfl
            exact ⟨hmay, List.mem_cons_self _ _⟩
        · rw [hmu] at h
          cases cm with
          | true =>
            cases h
            rcases cpio_two hcp with ⟨-, hrl⟩ | ⟨hmay, hrl⟩
            · exact ⟨[], by simp [hrl]⟩
            · refine ⟨[x], by simpa using hrl, ?_⟩
              intro e he
              rcases List.mem_singleton.mp he with rfl
              exact ⟨hmay, List.mem_cons_self _ _⟩
          | false =>
            obtain ⟨d, hd, hde⟩ := ih rlc (t + 1) out rl' t' h
            rcases cpio_two hcp with ⟨-, hrl⟩ | ⟨hmay, hrl⟩
            · subst hrl
              refine ⟨d, hd, ?_⟩
              intro e he
              obtain ⟨h1, h2⟩ := hde e he
              exact ⟨h1, List.mem_cons.mpr (Or.inr h2)⟩
            · subst hrl
              refine ⟨[x] ++ d, by simpa [List.append_assoc] using hd, ?_⟩
              intro e he
              rcases List.mem_append.mp he with he | he
              · rcases List.mem_singleton.mp he with rfl
                exact ⟨hmay, List.mem_cons_self _ _⟩
              · obtain ⟨h1, h2⟩ := hde e he
                exact ⟨h1, List.mem_cons.mpr (Or.inr h2)⟩

theorem flatForward_append {S : Solver} {p : KValue} {m : Nat} {tmo : Nat → Bool} :
    ∀ (fs rl : List MemEntry) (t : Nat) (out : FlatOut) (rl' : List MemEntry) (t' : Nat),
      flatForward S p m tmo fs rl t = (out, rl', t') →
      ∃ d, rl' = rl ++ d ∧ ∀ e ∈ d, S.mayBeTrue (boundsFor e.1 p) = some true ∧ e ∈ fs := by
  intro fs
  induction fs with
  | nil =>
    intro rl t out rl' t' h
    simp only [flatForward] at h
    cases h
    exact ⟨[], by simp⟩
  | cons x rest ih =>
    intro rl t out rl' t' h
    simp only [flatForward] at h
    split at h
    · cases h
      exact ⟨[], by simp⟩
    · rcases hmu : S.mustBeTrue (Expr.ult p.value (baseFor x.1)) with _ | cm
      · rw [hmu] at h
        cases h
        exact ⟨[], by simp⟩
      · rw [hmu] at h
        cases cm with
        | true =>
          cases h
          exact ⟨[], by simp⟩
        | false =>
          rcases hcp : checkPointerInObject S p x rl m with ⟨c, rlc⟩
          rw [hcp] at h
          rcases cpio_code_cases hcp with h0 | h1 | h2
          · subst h0
            rw [if_pos rfl] at h
            cases h
            obtain ⟨hrl, -, -, hmay⟩ := cpio_zero hcp
            refine ⟨[x], by simpa using hrl, ?_⟩
            intro e he
            rcases List.mem_singleton.mp he with rfl
            exact ⟨hmay, List.mem_cons_self _ _⟩
          · subst h1
            rw [if_neg (by omega), if_pos rfl] at h
            cases h
            rcases cpio_one_rl hcp with hrl | ⟨hrl, hmay⟩
            · exact ⟨[], by simp [hrl]⟩
            · refine ⟨[x], by simpa using hrl, ?_⟩
              intro e he
              rcases List.mem_singleton.mp he with rfl
              exact ⟨hmay, List.mem_cons_self _ _⟩
          · subst h2
            rw [if_neg (by omega), if_neg (by omega)] at h
            obtain ⟨d, hd, hde⟩ := ih rlc (t + 1) out rl' t' h
            rcases cpio_two hcp with ⟨-, hrl⟩ | ⟨hmay, hrl⟩
            · subst hrl
              refine ⟨d, hd, ?_⟩
              intro e he
              obtain ⟨h1, h2⟩ := hde e he
              exact ⟨h1, List.mem_cons.mpr (Or.inr h2)⟩
            · subst hrl
              refine ⟨[x] ++ d, by simpa [List.append_assoc] using hd, ?_⟩
              intro e he
              rcases List.mem_append.mp he with he | he
              · rcases List.mem_singleton.mp he with rfl
                exact ⟨hmay, List.mem_cons_self _ _⟩
              · obtain ⟨h1, h2⟩ := hde e he
                exact ⟨h1, List.mem_cons.mpr (Or.inr h2)⟩

theorem flatBackward_complete {S : Solver} {p : KValue} {m : Nat} {tmo : Nat → Bool} :
    ∀ (bs rl : List MemEntry) (t : Nat) (rl' : List MemEntry) (t' : Nat),
      flatBackward S p m tmo bs rl t = (.complete, rl', t') →
      ∃ e, rl' = rl ++ [e] ∧ rl'.length = 1 ∧ e ∈ bs ∧
        S.mustBeTrue (boundsFor e.1 p) = some true ∧
        S.mayBeTrue (boundsFor e.1 p) = some true := by
  intro bs
  induction bs with
  | nil =>
    intro rl t rl' t' h
    simp only [flatBackward] at h
    simp at h
  | cons x rest ih =>
    intro rl t rl' t' h
    simp only [flatBackward] at h
    split at h
    · simp at h
    · rcases hcp : checkPointerInObject S p x rl m with ⟨c, rlc⟩
      rw [hcp] at h
      rcases cpio_code_cases hcp with h0 | h1 | h2
      · subst h0
        rw [if_pos rfl] at h
        obtain ⟨hrl, hlen, hmust, hmay⟩ := cpio_zero hcp
        cases h
        exact ⟨x, hrl, hlen, List.mem_cons_self _ _, hmust, hmay⟩
      · subst h1
        rw [if_neg (by omega), if_pos rfl] at h
        simp at h
      · subst h2
        rw [if_neg (by omega), if_neg (by omega)] at h
        rcases hmu : S.mustBeTrue (Expr.uge p.value (baseFor x.1)) with _ | cm
        · rw [hmu] at h
          simp at h
        · rw [hmu] at h
          cases cm with
          | true => simp at h
          | false =>
            obtain ⟨e, hrl, hlen, hmem, hmust, hmay⟩ := ih rlc (t + 1) rl' t' h
            rcases cpio_two hcp with ⟨-, hrlc⟩ | ⟨-, hrlc⟩
            · subst hrlc
              exact ⟨e, hrl, hlen, List.mem_cons.mpr (Or.inr hmem), hmust, hmay⟩
            · subst hrlc
              exfalso
              rw [hrl] at hlen
              simp at hlen

theorem flatForward_complete {S : Solver} {p : KValue} {m : Nat} {tmo : Nat → Bool} :
    ∀ (fs rl : List MemEntry) (t : Nat) (rl' : List MemEntry) (t' : Nat),
      flatForward S p m tmo fs rl t = (.complete, rl', t') →
      ∃ e, rl' = rl ++ [e] ∧ rl'.length = 1 ∧ e ∈ fs ∧
        S.mustBeTrue (boundsFor e.1 p) = some true ∧
        S.mayBeTrue (boundsFor e.1 p) = some true := by
  intro fs
  induction fs with
  | nil =>
    intro rl t rl' t' h
    simp only [flatForward] at h
    simp at h
  | cons x rest ih =>
    intro rl t rl' t' h
    simp only [flatForward] at h
    split at h
    · simp at h
    · rcases hmu : S.mustBeTrue (Expr.ult p.value (baseFor x.1)) with _ | cm
      · rw [hmu] at h
        simp at h
      · rw [hmu] at h
        cases cm with
        | true => simp at h
        | false =>
          rcases hcp : checkPointerInObject S p x rl m with ⟨c, rlc⟩
          rw [hcp] at h
          rcases cpio_code_cases hcp with h0 | h1 | h2
          · subst h0
            rw [if_pos rfl] at h
            obtain ⟨hrl, hlen, hmust, hmay⟩ := cpio_zero hcp
            cases h
            exact ⟨x, hrl, hlen, List.mem_cons_self _ _, hmust, hmay⟩
          · subst h1
            rw [if_neg (by omega), if_pos rfl] at h
            simp at h
          · subst h2
            rw [if_neg (by omega), if_neg (by omega)] at h
            obtain ⟨e, hrl, hlen, hmem, hmust, hmay⟩ := ih rlc (t + 1) rl' t' h
            rcases cpio_two hcp with ⟨-, hrlc⟩ | ⟨-, hrlc⟩
            · subst hrlc
              exact ⟨e, hrl, hlen, List.mem_cons.mpr (Or.inr hmem), hmust, hmay⟩
            · subst hrlc
              exfalso
              rw [hrl] at hlen
              simp at hlen

theorem flatBackward_next_excl {S : Solver} {p : KValue} {m : Nat} {tmo : Nat → Bool}
    {P : (Nat → Nat) → Prop} (hS : Sound P S) :
    ∀ (bs rl : List MemEntry) (t : Nat) (rl' : List MemEntry) (t' : Nat),
      flatBackward S p m tmo bs rl t = (.next, rl', t') →
      (∀ e ∈ bs, Geom e) →
      bs.Pairwise (fun a b => Sep b a) →
      ∀ e ∈ bs, e ∈ rl' ∨ ∀ α, P α → evalExpr (boundsFor e.1 p) α = 0 := by
  intro bs
  induction bs with
  | nil =>
    intro rl t rl' t' h hG hP e he
    simp at he
  | cons x rest ih =>
    intro rl t rl' t' h hG hP e he
    obtain ⟨hx, hPrest⟩ := List.pairwise_cons.mp hP
    simp only [flatBackward] at h
    split at h
    · simp at h
    · rcases hcp : checkPointerInObject S p x rl m with ⟨c, rlc⟩
      rw [hcp] at h
      rcases cpio_code_cases hcp with h0 | h1 | h2
      · subst h0
        rw [if_pos rfl] at h
        simp at h
      · subst h1
        rw [if_neg (by omega), if_pos rfl] at h
        simp at h
      · subst h2
        rw [if_neg (by omega), if_neg (by omega)] at h
        rcases hmu : S.mustBeTrue (Expr.uge p.value (baseFor x.1)) with _ | cm
        · rw [hmu] at h
          simp at h
        · rw [hmu] at h
          cases cm with
          | true =>
            cases h
            rcases List.mem_cons.mp he with rfl | he2
            · rcases cpio_two hcp with ⟨hmayf, hrlc⟩ | ⟨-, hrlc⟩
              · exact Or.inr (fun α hα => may_false_eval hS hmayf α hα)
              · subst hrlc
                exact Or.inl (by simp)
            · refine Or.inr ?_
              intro α hα
              have hGx : Geom x := hG x (List.mem_cons_self _ _)
              have hge := uge_eval_ge hGx.1 (must_true_eval hS hmu α hα)
              have hsep : Sep e x := hx e he2
              exact bounds_eval_zero_of_ge (hG e (List.mem_cons.mpr (Or.inr he2)))
                hsep.2 hsep.1 hge
          | false =>
            rcases List.mem_cons.mp he with rfl | he2
            · rcases cpio_two hcp with ⟨hmayf, hrlc⟩ | ⟨-, hrlc⟩
              · exact Or.inr (fun α hα => may_false_eval hS hmayf α hα)
              · subst hrlc
                obtain ⟨d, hd, -⟩ := flatBackward_append rest (rl ++ [e]) (t + 1) .next rl' t' h
                rw [hd]
                exact Or.inl (by simp)
            · exact ih rlc (t + 1) rl' t' h
                (fun e' he' => hG e' (List.mem_cons.mpr (Or.inr he'))) hPrest e he2

theorem flatForward_next_excl {S : Solver} {p : KValue} {m : Nat} {tmo : Nat → Bool}
    {P : (Nat → Nat) → Prop} (hS : Sound P S) :
    ∀ (fs rl : List MemEntry) (t : Nat) (rl' : List MemEntry) (t' : Nat),
      flatForward S p m tmo fs rl t = (.next, rl', t') →
      (∀ e ∈ fs, Geom e) →
      fs.Pairwise Sep →
      ∀ e ∈ fs, e ∈ rl' ∨ ∀ α, P α → evalExpr (boundsFor e.1 p) α = 0 := by
  intro fs
  induction fs with
  | nil =>
    intro rl t rl' t' h hG hP e he
    simp at he
  | cons x rest ih =>
    intro rl t rl' t' h hG hP e he
    obtain ⟨hx, hPrest⟩ := List.pairwise_cons.mp hP
    simp only [flatForward] at h
    split at h
    · simp at h
    · rcases hmu : S.mustBeTrue (Expr.ult p.value (baseFor x.1)) with _ | cm
      · rw [hmu] at h
        simp at h
      · rw [hmu] at h
        cases cm with
        | true =>
          cases h
          have hGx : Geom x := hG x (List.mem_cons_self _ _)
          refine Or.inr ?_
          intro α hα
          have hlt := ult_eval_lt hGx.1 (must_true_eval hS hmu α hα)
          rcases List.mem_cons.mp he with rfl | he2
          · exact bounds_eval_zero_of_lt hGx (le_refl _) hlt
          · exact bounds_eval_zero_of_lt (hG e (List.mem_cons.mpr (Or.inr he2)))
              (le_of_lt (hx e he2).1) hlt
        | false =>
          rcases hcp : checkPointerInObject S p x rl m with ⟨c, rlc⟩
          rw [hcp] at h
          rcases cpio_code_cases hcp with h0 | h1 | h2
          · subst h0
            rw [if_pos rfl] at h
            simp at h
          · subst h1
            rw [if_neg (by omega), if_pos rfl] at h
            simp at h
          · subst h2
            rw [if_neg (by omega), if_neg (by omega)] at h
            rcases List.mem_cons.mp he with rfl | he2
            · rcases cpio_two hcp with ⟨hmayf, hrlc⟩ | ⟨-, hrlc⟩
              · exact Or.inr (fun α hα => may_false_eval hS hmayf α hα)
              · subst hrlc
                obtain ⟨d, hd, -⟩ := flatForward_append rest (rl ++ [e]) (t + 1) .next rl' t' h
                rw [hd]
                exact Or.inl (by simp)
            · exact ih rlc (t + 1) rl' t' h
                (fun e' he' => hG e' (List.mem_cons.mpr (Or.inr he'))) hPrest e he2

/-- C4 counterexample: (i) with a symbolic segment, `resolve` appends the
segment-map object after only a `mayBeTrue(segment == s)` query although a
sound solver answers `mayBeTrue(bounds_check) = false` for it; (ii) with two
overlapping flat objects, the unique-result early exit returns complete while
an excluded object still may contain the pointer, so
`mustBeTrue(¬bounds_check)` fails for it. -/
theorem C4_counterexample :
    (Sound (fun α => α = oneAsn) (evalSolver oneAsn) ∧
      resolve spaceC5 (evalSolver oneAsn) c10ptr 0 (fun _ => false) =
        (false, [(moS5, os0)]) ∧
      (evalSolver oneAsn).mayBeTrue (boundsFor moS5 c10ptr) = some false) ∧
    (Sound (fun α => α = zeroAsn) (evalSolver zeroAsn) ∧
      resolve spaceOv (evalSolver zeroAsn) ptrOv 0 (fun _ => false) =
        (false, [(moOv2, os0)]) ∧
      ((moOv1, os0) : MemEntry) ∈ spaceOv.objects ∧
      ((moOv1, os0) : MemEntry) ∉ [((moOv2, os0) : MemEntry)] ∧
      (evalSolver zeroAsn).mustBeTrue (Expr.isZero (boundsFor moOv1 ptrOv)) =
        some false) := by
  exact ⟨⟨sound_evalSolver oneAsn, by decide, by decide⟩,
    ⟨sound_evalSolver zeroAsn, by decide, by decide, by decide, by decide⟩⟩

/-- C4 amended: for the constant-segment (flat) phase of multi-resolve, with
a sound solver over geometrically well-formed, pairwise-separated objects:
every entry of the produced resolution list was answered
`mayBeTrue(bounds_check) = true` and is a bound object; and when the call
reports complete, every bound object not in the list has an unsatisfiable
bounds check (`mustBeTrue(¬bounds_check)` holds semantically).  The
symbolic-segment phase appends objects after only a segment-equality query
and carries no such guarantee (see the counterexample). -/
theorem C4_amended_flat_enumeration (A : AddressSpace) (S : Solver) (p : KValue)
    (P : (Nat → Nat) → Prop) (maxRes t₀ : Nat) (tmo : Nat → Bool)
    (hS : Sound P S) (hseg : p.segment = Expr.const 0)
    (hGeom : ∀ e ∈ A.objects, Geom e)
    (hPair : A.objects.Pairwise Sep) :
    ∀ ret rl' t', resolveConstantSegment A S p maxRes tmo [] t₀ = (ret, rl', t') →
      (∀ e ∈ rl', S.mayBeTrue (boundsFor e.1 p) = some true ∧ e ∈ A.objects) ∧
      (ret = false → ∀ e ∈ A.objects, e ∉ rl' →
        ∀ α, P α → evalExpr (boundsFor e.1 p) α = 0) := by
  intro ret rl' t' h
  have hac : p.segment.asConst = some 0 := by
    rw [hseg]
    simp [Expr.asConst]
  rcases hgv : S.getValue p.value with _ | v
  · simp only [resolveConstantSegment, hac, hgv] at h
    rw [if_neg (by simp)] at h
    cases h
    exact ⟨fun e he => absurd he (by simp), fun hret => absurd hret (by simp)⟩
  · have hsplitPair : ((A.objects.takeWhile (fun e => e.1.address ≤ v % w64)) ++
        (A.objects.dropWhile (fun e => e.1.address ≤ v % w64))).Pairwise Sep := by
      rw [List.takeWhile_append_dropWhile]
      exact hPair
    obtain ⟨hPairPre, hPairSuf, hCross⟩ := List.pairwise_append.mp hsplitPair
    have hPairBack :
        ((A.objects.takeWhile (fun e => e.1.address ≤ v % w64)).reverse).Pairwise
          (fun a b => Sep b a) := List.pairwise_reverse.mpr hPairPre
    have hmemBack : ∀ e ∈ (A.objects.takeWhile (fun e => e.1.address ≤ v % w64)).reverse,
        e ∈ A.objects := fun e he => mem_of_takeWhile (List.mem_reverse.mp he)
    have hmemSuf : ∀ e ∈ A.objects.dropWhile (fun e => e.1.address ≤ v % w64),
        e ∈ A.objects := fun e he => mem_of_dropWhile he
    have hGback : ∀ e ∈ (A.objects.takeWhile (fun e => e.1.address ≤ v % w64)).reverse,
        Geom e := fun e he => hGeom e (hmemBack e he)
    have hGsuf : ∀ e ∈ A.objects.dropWhile (fun e => e.1.address ≤ v % w64),
        Geom e := fun e he => hGeom e (hmemSuf e he)
    simp only [resolveConstantSegment, hac, hgv] at h
    rw [if_neg (by simp)] at h
    rcases hbw : flatBackward S p maxRes tmo
        ((A.objects.takeWhile (fun e => e.1.address ≤ v % w64)).reverse) [] t₀ with
      ⟨out, rl1, t1⟩
    cases out with
    | incomplete =>
      rw [hbw] at h
      cases h
      constructor
      · obtain ⟨d, hd, hde⟩ := flatBackward_append _ [] t₀ .incomplete _ _ hbw
        intro e he
        rw [hd] at he
        simp only [List.nil_append] at he
        obtain ⟨h1, h2⟩ := hde e he
        exact ⟨h1, hmemBack e h2⟩
      · intro hret
        exact absurd hret (by simp)
    | complete =>
      rw [hbw] at h
      cases h
      obtain ⟨estar, hrl, hlen, hmem, hmust, hmay⟩ :=
        flatBackward_complete _ [] t₀ _ _ hbw
      have hmemO : estar ∈ A.objects := hmemBack estar hmem
      constructor
      · intro e he
        rw [hrl] at he
        simp only [List.nil_append, List.mem_singleton] at he
        subst he
        exact ⟨hmay, hmemO⟩
      · intro _ e he hnotin α hα
        have hne : estar ≠ e := by
          intro heq
          rw [hrl] at hnotin
          exact hnotin (by simp [heq])
        exact bounds_excl_pair (hGeom estar hmemO) (hGeom e he)
          (pairwise_rel_of_mem hPair hmemO he hne)
          (must_true_eval hS hmust α hα)
    | next =>
      rcases hfw : flatForward S p maxRes tmo
          (A.objects.dropWhile (fun e => e.1.address ≤ v % w64)) rl1 t1 with
        ⟨out2, rl2, t2⟩
      cases out2 with
      | incomplete =>
        simp only [hbw, hfw] at h
        cases h
        constructor
        · obtain ⟨d1, hd1, hde1⟩ := flatBackward_append _ [] t₀ .next rl1 t1 hbw
          obtain ⟨d2, hd2, hde2⟩ := flatForward_append _ rl1 t1 .incomplete _ _ hfw
          intro e he
          rw [hd2, hd1] at he
          simp only [List.nil_append] at he
          rcases List.mem_append.mp he with he | he
          · obtain ⟨h1, h2⟩ := hde1 e he
            exact ⟨h1, hmemBack e h2⟩
          · obtain ⟨h1, h2⟩ := hde2 e he
            exact ⟨h1, hmemSuf e h2⟩
        · intro hret
          exact absurd hret (by simp)
      | complete =>
        simp only [hbw, hfw] at h
        cases h
        obtain ⟨estar, hrl, hlen, hmem, hmust, hmay⟩ :=
          flatForward_complete _ rl1 t1 _ _ hfw
        have hmemO : estar ∈ A.objects := hmemSuf estar hmem
        have hrl1nil : rl1 = [] := by
          rw [hrl] at hlen
          simp at hlen
          exact hlen
        constructor
        · intro e he
          rw [hrl, hrl1nil] at he
          simp only [List.nil_append, List.mem_singleton] at he
          subst he
          exact ⟨hmay, hmemO⟩
        · intro _ e he hnotin α hα
          have hne : estar ≠ e := by
            intro heq
            rw [hrl] at hnotin
            exact hnotin (by simp [heq])
          exact bounds_excl_pair (hGeom estar hmemO) (hGeom e he)
            (pairwise_rel_of_mem hPair hmemO he hne)
            (must_true_eval hS hmust α hα)
      | next =>
        simp only [hbw, hfw] at h
        cases h
        constructor
        · obtain ⟨d1, hd1, hde1⟩ := flatBackward_append _ [] t₀ .next rl1 t1 hbw
          obtain ⟨d2, hd2, hde2⟩ := flatForward_append _ rl1 t1 .next _ _ hfw
          intro e he
          rw [hd2, hd1] at he
          simp only [List.nil_append] at he
          rcases List.mem_append.mp he with he | he
          · obtain ⟨h1, h2⟩ := hde1 e he
            exact ⟨h1, hmemBack e h2⟩
          · obtain ⟨h1, h2⟩ := hde2 e he
            exact ⟨h1, hmemSuf e h2⟩
        · intro _ e he hnotin α hα
          have he2 : e ∈ (A.objects.takeWhile (fun e => e.1.address ≤ v % w64)) ++
              (A.objects.dropWhile (fun e => e.1.address ≤ v % w64)) := by
            rw [List.takeWhile_append_dropWhile]
            exact he
          rcases List.mem_append.mp he2 with hpre | hsuf
          · have heb : e ∈ (A.objects.takeWhile (fun e => e.1.address ≤ v % w64)).reverse :=
              List.mem_reverse.mpr hpre
            rcases flatBackward_next_excl hS _ [] t₀ rl1 t1 hbw hGback hPairBack e heb with
              hin | hexcl
            · obtain ⟨d2, hd2, -⟩ := flatForward_append _ rl1 t1 .next _ _ hfw
              exact absurd (by rw [hd2]; exact List.mem_append.mpr (Or.inl hin)) hnotin
            · exact hexcl α hα
          · rcases flatForward_next_excl hS _ rl1 t1 _ _ hfw hGsuf hPairSuf e hsuf with
              hin | hexcl
            · exact absurd hin hnotin
            · exact hexcl α hα

/-- Witness for the amended C4 on three separated flat objects with a pointer
committed inside the first. -/
theorem C4_witness :
    (∀ e ∈ (resolveConstantSegment spaceC2 (evalSolver zeroAsn) ptrC5w 0
        (fun _ => false) [] 0).2.1,
      (evalSolver zeroAsn).mayBeTrue (boundsFor e.1 ptrC5w) = some true ∧
        e ∈ spaceC2.objects) ∧
    ((resolveConstantSegment spaceC2 (evalSolver zeroAsn) ptrC5w 0
        (fun _ => false) [] 0).1 = false →
      ∀ e ∈ spaceC2.objects,
        e ∉ (resolveConstantSegment spaceC2 (evalSolver zeroAsn) ptrC5w 0
          (fun _ => false) [] 0).2.1 →
        ∀ α, α = zeroAsn → evalExpr (boundsFor e.1 ptrC5w) α = 0) := by
  have hGeom : ∀ e ∈ spaceC2.objects, Geom e := by
    intro e he
    simp only [spaceC2, List.mem_cons, List.not_mem_nil, or_false] at he
    rcases he with rfl | rfl | rfl
    · exact ⟨by decide, 10, rfl, by decide, by decide⟩
    · exact ⟨by decide, 10, rfl, by decide, by decide⟩
    · exact ⟨by decide, 10, rfl, by decide, by decide⟩
  have hPair : spaceC2.objects.Pairwise Sep := by
    refine List.pairwise_cons.mpr ⟨?_, List.pairwise_cons.mpr ⟨?_, ?_⟩⟩
    · intro b hb
      rcases List.mem_cons.mp hb with rfl | hb
      · exact ⟨by decide, by decide⟩
      · rcases List.mem_singleton.mp hb with rfl
        exact ⟨by decide, by decide⟩
    · intro b hb
      rcases List.mem_singleton.mp hb with rfl
      exact ⟨by decide, by decide⟩
    · simp
  exact C4_amended_flat_enumeration spaceC2 (evalSolver zeroAsn) ptrC5w
    (fun α => α = zeroAsn) 0 0 (fun _ => false) (sound_evalSolver zeroAsn) rfl
    hGeom hPair _ _ _ rfl

end Klee
